import Mathlib

/-!
Verification development for the subtitle merge engine of the
`dual-subtitle-burner` repository (`src/sub-merger.py` and the engine copy
embedded in `src/dual-subtitle-burner.py`, class `SubMerger`).

Shallow embedding conventions:

* An ASS event line (`Dialogue: ...` / `Comment: ...`) is modelled as a
  ten-field record `AssEvent` mirroring `line.split(",", 9)`; joining the
  fields with commas and re-splitting at the first nine commas is exact for
  such lines, so the record form is faithful to the string form the Python
  code passes around.
* Timestamps inside events are modelled as integer milliseconds.  Every
  pipeline stage of the source parses the timestamp fields with
  `_ass_time_to_ms` and re-emits them with `_ms_to_ass_time`; parsing after
  formatting is the identity for the non-negative centisecond-aligned values
  the pipeline produces (proved below as the time round-trip theorem), so
  carrying the parsed integer is faithful.  The string-level codec itself is
  modelled separately (`ass_time_to_ms` / `ms_to_ass_time`).
* Event text is modelled as a list of literal segments and `{...}` override
  blocks (`AssText`), matching the data model of the spec ("text may embed
  override tags interleaved with literal glyphs").  The regex operations of
  the source are modelled on this structure:
  - plain segments contain no `{`/`}` and no substrings matching the
    override-tag patterns of the source's regexes;
  - an `other` tag is any override tag that is not one of
    `\an<digit>`, `\pos(..)`, `\move(..)`, `\org(..)`, `\k<digits>`; its
    name is assumed not to contain the letter sequences `an`, `pos`,
    `move`, `org` or a `k` followed by a digit, so the source's substring
    regexes recognise exactly the dedicated constructors;
  - coordinates are modelled as integers.  The source parses them with
    `float` (`sub-merger.py`) or `int` (`dual-subtitle-burner.py`); on
    integral coordinates the two agree and the arithmetic (comparisons
    with 540, adding or subtracting 540) is exact.
* A `Line.bad` value models a `Dialogue:`-prefixed event line with fewer
  than ten comma-separated fields.  Reading any of its fields past the split
  raises `IndexError` in the source; every stage of the pipeline reads such
  fields for every event line it visits, so each stage is modelled as
  returning `none` (the exception propagating to the `try`/`except` of
  `merge_subs_for_batch`, which returns `None` for the job) whenever a bad
  line is present.
-/

namespace DualSub

/-- Python `str.strip()` whitespace characters (ASCII subset). -/
def isPySpace (c : Char) : Bool :=
  c == ' ' || c == '\t' || c == '\n' || c == '\r' || c == '\x0b' || c == '\x0c'

/-- Python `str.strip()` on a character list. -/
def pyStripList (cs : List Char) : List Char :=
  ((cs.dropWhile isPySpace).reverse.dropWhile isPySpace).reverse

/-- Python `str.strip()`. -/
def pyStrip (s : String) : String := ⟨pyStripList s.data⟩

/-- ASCII lower-casing of one character (Python `str.lower` / `str.casefold`
on the ASCII strings appearing in the engine's style heuristics). -/
def lowerCh (c : Char) : Char :=
  if 'A' ≤ c && c ≤ 'Z' then Char.ofNat (c.toNat + 32) else c

/-- Python `str.lower()` / `str.casefold()` on ASCII strings. -/
def pyLower (s : String) : String := ⟨s.data.map lowerCh⟩

/-- Does `p` occur at the head of `l`? -/
def listLead (p l : List Char) : Bool :=
  match p, l with
  | [], _ => true
  | _ :: _, [] => false
  | a :: ps, b :: ls => a == b && listLead ps ls

/-- Does `p` occur as a contiguous sublist of `l` (Python `p in l`)? -/
def listHasSub (p : List Char) : List Char → Bool
  | [] => listLead p []
  | c :: cs => listLead p (c :: cs) || listHasSub p cs

/-- Python substring test `needle in hay`. -/
def containsSub (hay needle : String) : Bool := listHasSub needle.data hay.data

/-! ## Time codec (`_ass_time_to_ms` / `_ms_to_ass_time`) -/

/-- Decimal digit character. -/
def digitCh (d : Nat) : Char := Char.ofNat (48 + d)

/-- Is `c` a decimal digit? -/
def isDigitCh (c : Char) : Bool := '0' ≤ c && c ≤ '9'

/-- Numeric value of a digit character. -/
def digitVal (c : Char) : Nat := c.toNat - 48

/-- Decimal digits of a natural number, most significant first. -/
def natDigits (n : Nat) : List Char :=
  if n < 10 then [digitCh n] else natDigits (n / 10) ++ [digitCh (n % 10)]

/-- Decimal rendering of an integer (Python `str`/format of an `int`). -/
def intDigits (i : Int) : List Char :=
  if i < 0 then '-' :: natDigits (-i).toNat else natDigits i.toNat

/-- Value of a digit string, most significant first. -/
def digitsVal (cs : List Char) : Nat :=
  cs.foldl (fun a c => 10 * a + digitVal c) 0

/-- Python `int(s)` restricted to an optional minus sign followed by decimal
digits (the shapes produced and consumed by the engine's time codec). -/
def parseIntCh (cs : List Char) : Option Int :=
  match cs with
  | [] => none
  | c :: rest =>
    if c == '-' then
      if rest ≠ [] && rest.all isDigitCh then some (-(digitsVal rest : Nat)) else none
    else if (c :: rest).all isDigitCh then some ((digitsVal (c :: rest) : Nat) : Int)
    else none

/-- Python `s.split(c)` on character lists. -/
def splitOnCh (c : Char) : List Char → List (List Char)
  | [] => [[]]
  | x :: xs =>
    if x == c then [] :: splitOnCh c xs
    else
      match splitOnCh c xs with
      | g :: gs => (x :: g) :: gs
      | [] => [[x]]

/-- `SubMerger._ass_time_to_ms`: parse `H:MM:SS.CC` into milliseconds.
The source unpacks `t.split(":")` into exactly three parts and the last part
at `"."` into exactly two; any other shape raises, modelled as `none`. -/
def ass_time_to_ms (t : String) : Option Int :=
  match splitOnCh ':' t.data with
  | [hc, mc, sc] =>
    match splitOnCh '.' sc with
    | [s1, c1] => do
      let h ← parseIntCh hc
      let m ← parseIntCh mc
      let s ← parseIntCh s1
      let cs ← parseIntCh c1
      return (h * 3600 + m * 60 + s) * 1000 + cs * 10
    | _ => none
  | _ => none

/-- Zero-pad to width two (Python format `:02` on the values produced by the
codec; for a negative value the sign already fills the width, matching
Python, which pads inside the sign only from width three up). -/
def pad2 (cs : List Char) : List Char := if cs.length < 2 then '0' :: cs else cs

/-- `SubMerger._ms_to_ass_time`: format milliseconds as `H:MM:SS.CC`.
Python `divmod` is floor division and remainder, i.e. `Int.ediv`/`Int.emod`
for the positive divisors used here. -/
def ms_to_ass_time (ms : Int) : String :=
  let h := ms.ediv 3600000
  let r1 := ms.emod 3600000
  let m := r1.ediv 60000
  let r2 := r1.emod 60000
  let s := r2.ediv 1000
  let r3 := r2.emod 1000
  let cs := r3.ediv 10
  ⟨intDigits h ++ ':' :: pad2 (intDigits m) ++ ':' :: pad2 (intDigits s)
      ++ '.' :: pad2 (intDigits cs)⟩

/-- `SubMerger._overlaps`: half-open interval overlap test. -/
def overlaps (aStart aEnd bStart bEnd : Int) : Bool :=
  max aStart bStart < min aEnd bEnd

/-! ## Event data model -/

/-- Kind of an event line (`Dialogue:` / `Comment:` prefix, recognised
case-insensitively by `_event_parts`). -/
inductive EvKind
  | dialogue
  | comment
deriving DecidableEq

/-- One override tag inside a `{...}` block. -/
inductive AssTag
  | an (n : Nat)
  | pos (x y : Int)
  | move (x1 y1 x2 y2 : Int) (rest : List Int)
  | org (x y : Int)
  | kar (n : Nat)
  | other (name : String)
deriving DecidableEq

/-- One piece of event text: an override block or a literal segment. -/
inductive TextItem
  | block (tags : List AssTag)
  | plain (s : String)
deriving DecidableEq

/-- Event text: override blocks interleaved with literal glyph runs. -/
abbrev AssText := List TextItem

/-- The ten comma-separated fields of an event line
(`Layer,Start,End,Style,Name,MarginL,MarginR,MarginV,Effect,Text`), with the
kind split off the first field and the timestamps parsed. -/
structure AssEvent where
  kind : EvKind
  layer : String
  startMs : Int
  endMs : Int
  style : String
  name : String
  marginL : String
  marginR : String
  marginV : String
  effect : String
  text : AssText
deriving DecidableEq

/-- One line of the `[Events]` section as the engine sees it: a parsed event
line, a non-event line kept verbatim (for which `_event_parts` returns
`(False, None)`), or a malformed event line (see the header comment). -/
inductive Line
  | ev (e : AssEvent)
  | raw (s : String)
  | bad (s : String)
deriving DecidableEq

/-- The parsed events of a line list, in order. -/
def parsedEvents (lines : List Line) : List AssEvent :=
  lines.filterMap fun l => match l with | .ev e => some e | _ => none

/-- Is a malformed event line present? -/
def hasBadLine (lines : List Line) : Bool :=
  lines.any fun l => match l with | .bad _ => true | _ => false

/-! ## Text-level operations (the regex helpers of the source) -/

/-- Tags matched by the positioning alternation `an\d|pos|move|org` of the
source's regexes. -/
def AssTag.isPositioning : AssTag → Bool
  | .an _ => true
  | .pos _ _ => true
  | .move _ _ _ _ _ => true
  | .org _ _ => true
  | _ => false

/-- Tags of one text item (empty for a literal segment). -/
def blockTags : TextItem → List AssTag
  | .block tgs => tgs
  | .plain _ => []

/-- All override tags of a text, in order of occurrence. -/
def allTags (t : AssText) : List AssTag := t.flatMap blockTags

/-- `SubMerger._has_explicit_positioning`: the regex
`\{\\(?:pos|move|org|an\d)\b.*?\}` requires the positioning tag to stand
immediately after the opening `{\`, i.e. to be the first tag of a block. -/
def has_explicit_positioning (t : AssText) : Bool :=
  t.any fun i =>
    match i with
    | .block (tg :: _) => tg.isPositioning
    | _ => false

/-- The `\pos` arguments of a tag, when it is one. -/
def posExtract : AssTag → Option (Int × Int)
  | .pos x y => some (x, y)
  | _ => none

/-- The first four `\move` arguments of a tag, when it is one. -/
def moveExtract : AssTag → Option (Int × Int × Int × Int)
  | .move x1 y1 x2 y2 _ => some (x1, y1, x2, y2)
  | _ => none

/-- The `\an` digit of a tag, when it is one. -/
def anExtract : AssTag → Option Nat
  | .an n => some n
  | _ => none

/-- First `\pos(...)` tag of the text (regex `\\pos\(([^)]+)\)` finds the
leftmost occurrence anywhere in the string). -/
def firstPosTag (t : AssText) : Option (Int × Int) :=
  (allTags t).findSome? posExtract

/-- First `\move(...)` tag of the text. -/
def firstMoveTag (t : AssText) : Option (Int × Int × Int × Int) :=
  (allTags t).findSome? moveExtract

/-- First `\an<digit>` tag of the text. -/
def firstAnTag (t : AssText) : Option Nat :=
  (allTags t).findSome? anExtract

/-- `SubMerger._is_top_aligned`: inspect `\pos`, then `\move`, then `\an`;
default `False`.  (In the AST the captured arguments always parse, so the
`ValueError` fall-throughs of the source do not arise.) -/
def is_top_aligned (t : AssText) : Bool :=
  match firstPosTag t with
  | some (_, y) => decide (y < 540)
  | none =>
    match firstMoveTag t with
    | some (_, y1, _, y2) => decide (y1 < 540) && decide (y2 < 540)
    | none =>
      match firstAnTag t with
      | some n => decide (7 ≤ n) || (decide (4 ≤ n) && decide (n ≤ 6))
      | none => false

/-- `fix_an` of `_force_vertical_region`. -/
def fixAn (toTop : Bool) (n : Nat) : Nat :=
  if toTop then
    if n ≤ 3 then n + 6 else if n ≤ 6 then n + 3 else n
  else
    if 7 ≤ n then n - 6 else if 4 ≤ n then n - 3 else n

/-- The `±540` rule of `fix_pos` / `fix_move`. -/
def fixY (toTop : Bool) (y : Int) : Int :=
  if toTop then (if 540 < y then y - 540 else y)
  else (if y < 540 then y + 540 else y)

/-- Per-tag action of `_force_vertical_region` (note `fix_pos` emits exactly
two coordinates, so any extra `\pos` arguments are dropped by the source;
the binary `pos` constructor carries none). -/
def fixTag (toTop : Bool) : AssTag → AssTag
  | .an n => .an (fixAn toTop n)
  | .pos x y => .pos x (fixY toTop y)
  | .move x1 y1 x2 y2 rest => .move x1 (fixY toTop y1) x2 (fixY toTop y2) rest
  | tg => tg

/-- `SubMerger._force_vertical_region`: rewrite every `\an`, `\pos` and
`\move` occurrence. -/
def force_vertical_region (t : AssText) (toTop : Bool) : AssText :=
  t.map fun i =>
    match i with
    | .block tgs => .block (tgs.map (fixTag toTop))
    | i => i

/-- `SubMerger._ensure_top_position`. -/
def ensure_top_position (t : AssText) : AssText := force_vertical_region t true

/-- `SubMerger._ensure_bottom_position`. -/
def ensure_bottom_position (t : AssText) : AssText := force_vertical_region t false

/-- Does a text item contain an `\org` tag?  (The `org_stripper` regex
`\{\\[^\}]*?org[^\}]*\}` deletes a whole `{...}` block as soon as `org`
occurs inside it.) -/
def blockHasOrg (i : TextItem) : Bool :=
  (blockTags i).any fun tg => match tg with | .org _ _ => true | _ => false

/-- The `org_stripper` of `_normalize_top`: drop every block containing an
`\org` tag. -/
def stripOrgBlocks (t : AssText) : AssText := t.filter fun i => !blockHasOrg i

/-- Does a text item contain any positioning tag?  (The `tag_stripper` regex
of `_sanitize_and_map_bottom` deletes a whole block as soon as `an`, `pos`,
`move` or `org` occurs inside it.) -/
def blockHasPositioning (i : TextItem) : Bool :=
  (blockTags i).any AssTag.isPositioning

/-- The `tag_stripper` of `_sanitize_and_map_bottom`: drop every block
containing a positioning tag. -/
def stripPositioningBlocks (t : AssText) : AssText :=
  t.filter fun i => !blockHasPositioning i

/-- Regex `\{\\k\d`: a `\k` tag immediately after an opening `{\`. -/
def hasKaraokeTag (t : AssText) : Bool :=
  t.any fun i =>
    match i with
    | .block (.kar _ :: _) => true
    | _ => false

/-- `"template" in text.lower()` over the rendered text (the letters of
`template` cannot span a brace or backslash, so it occurs in the rendering
iff it occurs in a literal segment or an `other` tag name). -/
def textContainsTemplate (t : AssText) : Bool :=
  t.any fun i =>
    match i with
    | .plain s => containsSub (pyLower s) "template"
    | .block tgs =>
      tgs.any fun tg =>
        match tg with
        | .other nm => containsSub (pyLower nm) "template"
        | _ => false

/-- `text.strip().startswith("{\\an8}")`: after discarding leading
whitespace the text must begin with exactly the block `{\an8}`. -/
def leadsWithAn8 : AssText → Bool
  | [] => false
  | .plain s :: rest => if pyStrip s = "" then leadsWithAn8 rest else false
  | .block [.an 8] :: _ => true
  | .block _ :: _ => false

/-! ## Style classifier (`_create_top_style_map`)

Identical source text in both `sub-merger.py` and
`dual-subtitle-burner.py`; defined once and used by both engine variants.
The styles of a parsed file are an insertion-ordered association list of
style name to raw style line, mirroring the Python dict. -/

/-- A style-name-to-role map, insertion ordered, mirroring the Python dict
(keys are distinct by construction in the source). -/
abbrev SMap := List (String × String)

/-- `style_map.get(st)`. -/
def roleGet (sm : SMap) (st : String) : Option String := sm.lookup st

/-- `known_primary` of `_create_top_style_map`. -/
def knownPrimary : List String := ["Default"]

/-- `known_secondary` of `_create_top_style_map`. -/
def knownSecondary : List String := ["Italics", "On Top Italic", "On Top", "OS"]

/-- Name-heuristic part of `_create_top_style_map`. -/
def baseStyleMap (styleNames : List String) : SMap :=
  styleNames.filterMap fun n =>
    if knownPrimary.contains n then some (n, "Top-Primary")
    else if knownSecondary.contains n then some (n, "Top-Secondary")
    else none

/-- Increment the count of `st` in an insertion-ordered tally (the
`collections.Counter` of the fallback path). -/
def addCount (st : String) : List (String × Nat) → List (String × Nat)
  | [] => [(st, 1)]
  | (a, c) :: rest =>
    if a = st then (a, c + 1) :: rest else (a, c) :: addCount st rest

/-- Tally of `l.split(",", 9)[3].strip()` over the `Dialogue:`-prefixed
lines (the fallback path reads field 3 of every dialogue line, so a
malformed line makes it raise: `none`). -/
def styleCounts : List Line → Option (List (String × Nat))
  | [] => some []
  | .bad _ :: _ => none
  | .raw _ :: rest => styleCounts rest
  | .ev e :: rest =>
    if e.kind = .dialogue then
      (styleCounts rest).map (addCount (pyStrip e.style))
    else styleCounts rest

/-- First entry with strictly maximal count (CPython `Counter.most_common`
sorts by count descending with a stable sort, so ties keep first-occurrence
order). -/
def firstMax : List (String × Nat) → Option String
  | [] => none
  | (a, c) :: rest =>
    match firstMax rest with
    | none => some a
    | some b =>
      let cb := (rest.lookup b).getD 0
      if cb > c then some b else some a

/-- `SubMerger._create_top_style_map`.  Returns `none` when the
frequency fallback raises on a malformed dialogue line. -/
def create_top_style_map (styles1 : List (String × String)) (events : List Line) :
    Option SMap :=
  let m := baseStyleMap (styles1.map Prod.fst)
  if m ≠ [] then some m
  else do
    let counts ← styleCounts events
    match firstMax counts with
    | none => return []
    | some primary =>
      if counts.length > 1 then
        match firstMax (counts.filter fun p => p.1 ≠ primary) with
        | some s2 => return [(primary, "Top-Primary"), (s2, "Top-Secondary")]
        | none => return [(primary, "Top-Primary")]
      else return [(primary, "Top-Primary")]

/-! ## Change points and splitting (`_collect_change_points`,
`_split_events_on_points`) — identical source text in both variants. -/

/-- `SubMerger._collect_change_points`: the start/end timestamps of the
events whose stripped style satisfies the filter.  The source builds a
`set`; the list here may contain duplicates, which is immaterial to its two
uses (emptiness and membership). -/
def collect_change_points : List Line → (String → Bool) → Option (List Int)
  | [], _ => some []
  | .bad _ :: _, _ => none
  | .raw _ :: rest, f => collect_change_points rest f
  | .ev e :: rest, f => do
    let ps ← collect_change_points rest f
    if f (pyStrip e.style) then return e.startMs :: e.endMs :: ps
    else return ps

/-- Insert into a sorted duplicate-free list (`sorted({...})`). -/
def insertPt (x : Int) : List Int → List Int
  | [] => [x]
  | y :: ys =>
    if x < y then x :: y :: ys
    else if x = y then y :: ys
    else y :: insertPt x ys

/-- `sorted({s, e, *(p for p in points if s < p < e)})`. -/
def cutsFor (pts : List Int) (s e : Int) : List Int :=
  (s :: e :: pts.filter fun p => decide (s < p) && decide (p < e)).foldr insertPt []

/-- Consecutive pairs (`for i in range(len(cuts)-1)`). -/
def consecPairs : List Int → List (Int × Int)
  | a :: b :: rest => (a, b) :: consecPairs (b :: rest)
  | _ => []

/-- Split one event at the change points strictly inside its interval. -/
def splitOne (pts : List Int) (e : AssEvent) : List AssEvent :=
  let cuts := cutsFor pts e.startMs e.endMs
  if cuts.length = 2 then [e]
  else (consecPairs cuts).map fun p => { e with startMs := p.1, endMs := p.2 }

/-- `SubMerger._split_events_on_points` without the empty-points shortcut. -/
def splitGo (pts : List Int) (pred : String → Bool) : List Line → Option (List Line)
  | [] => some []
  | .bad _ :: _ => none
  | .raw s :: rest => (splitGo pts pred rest).map (Line.raw s :: ·)
  | .ev e :: rest =>
    (splitGo pts pred rest).map fun out =>
      if pred (pyStrip e.style) then ((splitOne pts e).map Line.ev) ++ out
      else Line.ev e :: out

/-- `SubMerger._split_events_on_points` (`if not points: return events[:]`). -/
def split_events_on_points (lines : List Line) (pts : List Int)
    (pred : String → Bool) : Option (List Line) :=
  if pts.isEmpty then some lines else splitGo pts pred lines

/-! ## Top normalizer (`_normalize_top`) -/

/-- The `(start, end)` bucket key of an event. -/
def evKey (e : AssEvent) : Int × Int := (e.startMs, e.endMs)

/-- One entry of the `order` list of `_normalize_top`: a raw passthrough
line (`("RAW", i)` key, singleton bucket) or a first-seen `(start, end)`
key. -/
inductive OKey
  | rawLine (s : String)
  | timeKey (k : Int × Int)
deriving DecidableEq

/-- Build the `order` list: raw lines in place, each `(start, end)` key at
its first occurrence (`seen` accumulates keys already ordered).  A `bad`
line is unreachable here (the caller guards with `hasBadLine`): the source
would raise when parsing its timestamps. -/
def orderKeysAux : List Line → List (Int × Int) → List OKey
  | [], _ => []
  | .raw s :: rest, seen => .rawLine s :: orderKeysAux rest seen
  | .bad s :: rest, seen => .rawLine s :: orderKeysAux rest seen
  | .ev e :: rest, seen =>
    if seen.contains (evKey e) then orderKeysAux rest seen
    else .timeKey (evKey e) :: orderKeysAux rest (evKey e :: seen)

/-- `buckets[key]`: the parsed events with the given `(start, end)` key, in
list order (the source appends each event to its key's bucket while
scanning `ev2`). -/
def bucketOf (lines : List Line) (k : Int × Int) : List AssEvent :=
  (parsedEvents lines).filter fun e => evKey e == k

/-- The `primaries` partition of one bucket: no explicit positioning and
style mapped to `Top-Primary`. -/
def bucketPrimaries (sm : SMap) (b : List AssEvent) : List AssEvent :=
  b.filter fun p =>
    !has_explicit_positioning p.text
      && roleGet sm (pyStrip p.style) == some "Top-Primary"

/-- The `secondaries` partition of one bucket. -/
def bucketSecondaries (sm : SMap) (b : List AssEvent) : List AssEvent :=
  b.filter fun p =>
    !has_explicit_positioning p.text
      && roleGet sm (pyStrip p.style) == some "Top-Secondary"

/-- The `others` partition of one bucket: explicit positioning, or style
mapped to neither role. -/
def bucketOthers (sm : SMap) (b : List AssEvent) : List AssEvent :=
  b.filter fun p =>
    has_explicit_positioning p.text
      || (roleGet sm (pyStrip p.style) != some "Top-Primary"
          && roleGet sm (pyStrip p.style) != some "Top-Secondary")

/-- Keep the first event of a same-role group as is; demote the rest to
`Comment:` kind (`p[0] = "Comment:" + p[0].split(":", 1)[1]` keeps the
layer part of the field). -/
def demoteSiblings : List AssEvent → List AssEvent
  | [] => []
  | p :: rest => p :: rest.map fun q => { q with kind := .comment }

/-- Final per-event rewrite of `_normalize_top` in `sub-merger.py`: an
explicitly positioned event is forced to the top half only when not already
top-aligned, then `\org` blocks are stripped; otherwise the style is
replaced by its mapped role (or kept, stripped, if unmapped) and the text
forced to the top half. -/
def emitTopEvent (sm : SMap) (p : AssEvent) : AssEvent :=
  if has_explicit_positioning p.text then
    if !is_top_aligned p.text then
      { p with text := stripOrgBlocks (ensure_top_position p.text) }
    else
      { p with text := stripOrgBlocks p.text }
  else
    let st := pyStrip p.style
    { p with style := (roleGet sm st).getD st,
             text := stripOrgBlocks (ensure_top_position p.text) }

/-- Same rewrite in `dual-subtitle-burner.py`: no `_is_top_aligned` check;
explicitly positioned events are unconditionally forced to the top half. -/
def emitTopEventDual (sm : SMap) (p : AssEvent) : AssEvent :=
  if has_explicit_positioning p.text then
    { p with text := stripOrgBlocks (ensure_top_position p.text) }
  else
    let st := pyStrip p.style
    { p with style := (roleGet sm st).getD st,
             text := stripOrgBlocks (ensure_top_position p.text) }

/-- Emission of one `(start, end)` bucket (`keep + others` loop), with the
per-event rewrite as a parameter shared by the two engine variants. -/
def emitBucketWith (emit : SMap → AssEvent → AssEvent) (sm : SMap)
    (b : List AssEvent) : List AssEvent :=
  (demoteSiblings (bucketPrimaries sm b) ++ demoteSiblings (bucketSecondaries sm b)
      ++ bucketOthers sm b).map (emit sm)

/-- Bucketing-and-emission phase of `_normalize_top`. -/
def bucketPhaseWith (emit : SMap → AssEvent → AssEvent) (sm : SMap)
    (lines : List Line) : Option (List Line) :=
  if hasBadLine lines then none
  else
    some ((orderKeysAux lines []).flatMap fun k =>
      match k with
      | .rawLine s => [Line.raw s]
      | .timeKey k => (emitBucketWith emit sm (bucketOf lines k)).map Line.ev)

/-- The split pipeline of `_normalize_top` (identical in both variants):
split secondaries at primary change points, then primaries at secondary
change points. -/
def normalizeSplits (events : List Line) (sm : SMap) : Option (List Line) := do
  let isPrim := fun st => roleGet sm st == some "Top-Primary"
  let isSec := fun st => roleGet sm st == some "Top-Secondary"
  let pPts ← collect_change_points events isPrim
  let ev1 ← split_events_on_points events pPts isSec
  let sPts ← collect_change_points ev1 isSec
  split_events_on_points ev1 sPts isPrim

/-- `SubMerger._normalize_top` (`sub-merger.py`). -/
def normalize_top (events : List Line) (sm : SMap) : Option (List Line) := do
  let ev2 ← normalizeSplits events sm
  bucketPhaseWith emitTopEvent sm ev2

/-- `SubMerger._normalize_top` (`dual-subtitle-burner.py`). -/
def normalize_top_dual (events : List Line) (sm : SMap) : Option (List Line) := do
  let ev2 ← normalizeSplits events sm
  bucketPhaseWith emitTopEventDual sm ev2

/-! ## Bottom sanitizer (`_sanitize_and_map_bottom`) -/

/-- The `passthrough_styles` set. -/
def passthroughStyles : List String :=
  ["title", "screen", "opjp", "opcn", "staff", "credit", "sign", "sfx"]

/-- The default `processable` set. -/
def processableStyles : List String := ["sub-cn", "default", "top"]

/-- `is_karaoke_or_template` (identical in both variants). -/
def isKaraokeOrTemplate (effect : String) (t : AssText) : Bool :=
  pyStrip effect != "" || hasKaraokeTag t || textContainsTemplate t

/-- `collides_with_top`. -/
def collidesWithTop (ivs : List (Int × Int)) (s e : Int) : Bool :=
  ivs.any fun iv => overlaps s e iv.1 iv.2

/-- Branch condition of the passthrough branch (first `if` of the loop
body): decorative style, karaoke/template, or style outside the
processable set. -/
def passthroughCond (e : AssEvent) : Bool :=
  let cf := pyLower (pyStrip e.style)
  passthroughStyles.contains cf || isKaraokeOrTemplate e.effect e.text
    || !processableStyles.contains cf

/-- Per-event action of `_sanitize_and_map_bottom` in `sub-merger.py`:
passthrough and explicitly positioned cues are forced to the bottom half
only when top-aligned and colliding with a recorded top interval; plain
processable cues are stripped of positioning blocks and remapped onto the
bottom style slots. -/
def sanitizeEvent (ivs : List (Int × Int)) (e : AssEvent) : AssEvent :=
  let cf := pyLower (pyStrip e.style)
  let hasPos := has_explicit_positioning e.text
  if passthroughCond e then
    if hasPos && is_top_aligned e.text && collidesWithTop ivs e.startMs e.endMs then
      { e with text := ensure_bottom_position e.text }
    else e
  else if hasPos then
    if is_top_aligned e.text && collidesWithTop ivs e.startMs e.endMs then
      { e with text := ensure_bottom_position e.text }
    else e
  else
    let clean := stripPositioningBlocks e.text
    if leadsWithAn8 e.text || cf = "top" then
      { e with style := "Bottom-Secondary", text := clean }
    else
      { e with
          style :=
            if collidesWithTop ivs e.startMs e.endMs then "Bottom-Primary-Raised"
            else "Bottom-Primary-Normal",
          text := clean }

/-- Per-event action of `_sanitize_and_map_bottom` in
`dual-subtitle-burner.py`: any explicitly positioned cue of the first two
branches is unconditionally forced to the bottom half. -/
def sanitizeEventDual (ivs : List (Int × Int)) (e : AssEvent) : AssEvent :=
  let cf := pyLower (pyStrip e.style)
  let hasPos := has_explicit_positioning e.text
  if passthroughCond e then
    if hasPos then { e with text := ensure_bottom_position e.text } else e
  else if hasPos then
    { e with text := ensure_bottom_position e.text }
  else
    let clean := stripPositioningBlocks e.text
    if leadsWithAn8 e.text || cf = "top" then
      { e with style := "Bottom-Secondary", text := clean }
    else
      { e with
          style :=
            if collidesWithTop ivs e.startMs e.endMs then "Bottom-Primary-Raised"
            else "Bottom-Primary-Normal",
          text := clean }

/-- `kept_styles` accumulation (identical logic in both variants): the
passthrough and explicitly-positioned branches record the stripped style
name when it is a key of the bottom file's style table; the set is modelled
as a first-occurrence-ordered duplicate-free list. -/
def collectKept (styles2 : List (String × String)) : List Line → List String
  | [] => []
  | .raw _ :: rest => collectKept styles2 rest
  | .bad _ :: rest => collectKept styles2 rest
  | .ev e :: rest =>
    let st := pyStrip e.style
    let tail := collectKept styles2 rest
    if (passthroughCond e || has_explicit_positioning e.text)
        && (styles2.lookup st).isSome then
      if tail.contains st then tail else st :: tail
    else tail

/-- `SubMerger._sanitize_and_map_bottom` (`sub-merger.py`): each event line
is rewritten in place (every branch emits exactly one line); non-event
lines pass through; a malformed event line raises (`none`).
The source builds `kept_styles` as a Python `set`, whose iteration order is
the only consumer-visible aspect and is only used for membership-style
insertion into a dict whose values are later sorted, so a duplicate-free
list is a faithful model. -/
def sanitize_and_map_bottom (events2 : List Line) (styles2 : List (String × String))
    (ivs : List (Int × Int)) : Option (List Line × List String) :=
  if hasBadLine events2 then none
  else
    some
      (events2.map fun l =>
        match l with
        | .ev e => .ev (sanitizeEvent ivs e)
        | l => l,
       collectKept styles2 events2)

/-- `SubMerger._sanitize_and_map_bottom` (`dual-subtitle-burner.py`). -/
def sanitize_and_map_bottom_dual (events2 : List Line)
    (styles2 : List (String × String)) (ivs : List (Int × Int)) :
    Option (List Line × List String) :=
  if hasBadLine events2 then none
  else
    some
      (events2.map fun l =>
        match l with
        | .ev e => .ev (sanitizeEventDual ivs e)
        | l => l,
       collectKept styles2 events2)

/-! ## Merge core (`merge_subs_for_batch` event flow)

The file reads, the fixed header, the style-table assembly and the output
write are I/O glue outside the claims; the merge core modelled here is the
event flow: build the top style map, normalize the top track, record the
occupied top intervals, sanitize the bottom track, and concatenate top
events before bottom events. -/

/-- Recorded top-track intervals in `sub-merger.py` (lines 411–426):
`Dialogue`-kind events whose stripped style is a top role, or which carry
explicit top-aligned positioning. -/
def englishIntervals : List Line → Option (List (Int × Int))
  | [] => some []
  | .bad _ :: _ => none
  | .raw _ :: rest => englishIntervals rest
  | .ev e :: rest => do
    let ivs ← englishIntervals rest
    if e.kind = .dialogue
        && (pyStrip e.style == "Top-Primary" || pyStrip e.style == "Top-Secondary"
            || (has_explicit_positioning e.text && is_top_aligned e.text)) then
      return (e.startMs, e.endMs) :: ivs
    else return ivs

/-- Recorded top-track intervals in `dual-subtitle-burner.py`
(lines 436–445): only the two top role styles, no positioning test. -/
def englishIntervalsDual : List Line → Option (List (Int × Int))
  | [] => some []
  | .bad _ :: _ => none
  | .raw _ :: rest => englishIntervalsDual rest
  | .ev e :: rest => do
    let ivs ← englishIntervalsDual rest
    if e.kind = .dialogue
        && (pyStrip e.style == "Top-Primary" || pyStrip e.style == "Top-Secondary") then
      return (e.startMs, e.endMs) :: ivs
    else return ivs

/-- Event flow of `merge_subs_for_batch` (`sub-merger.py`): the merged
event list, or `none` when an exception makes the job fail. -/
def merge_subs_for_batch (styles1 : List (String × String)) (events1 : List Line)
    (styles2 : List (String × String)) (events2 : List Line) : Option (List Line) := do
  let sm ← create_top_style_map styles1 events1
  let top ← normalize_top events1 sm
  let ivs ← englishIntervals top
  let bot ← sanitize_and_map_bottom events2 styles2 ivs
  return top ++ bot.1

/-- Event flow of `merge_subs_for_batch` (`dual-subtitle-burner.py`). -/
def merge_subs_for_batch_dual (styles1 : List (String × String)) (events1 : List Line)
    (styles2 : List (String × String)) (events2 : List Line) : Option (List Line) := do
  let sm ← create_top_style_map styles1 events1
  let top ← normalize_top_dual events1 sm
  let ivs ← englishIntervalsDual top
  let bot ← sanitize_and_map_bottom_dual events2 styles2 ivs
  return top ++ bot.1

/-! ## Derived observations and concrete example inputs -/

/-- The `\k` tag arguments of a text, in order (used to state that karaoke
tags are retained). -/
def kTagValues (t : AssText) : List Nat :=
  (allTags t).filterMap fun tg => match tg with | .kar n => some n | _ => none

/-- A text free of positioning tags (`\an`, `\pos`, `\move`, `\org`). -/
def textTagFree (t : AssText) : Bool :=
  (allTags t).all fun tg => !tg.isPositioning

/-- A template dialogue event for the concrete examples. -/
def baseEv : AssEvent :=
  { kind := .dialogue, layer := " 0", startMs := 0, endMs := 1000,
    style := "Default", name := "", marginL := "0", marginR := "0", marginV := "0",
    effect := "", text := [.plain "x"] }

/-- C9 example: a processable cue whose text begins with `{\an8}`. -/
def c9Ev : AssEvent := { baseEv with text := [.block [.an 8], .plain "Hi"] }

/-- C3 witness: plain processable bottom cue at `[2000, 2500)`. -/
def c3Ev : AssEvent :=
  { baseEv with
      style := "Sub-CN", startMs := 2000, endMs := 2500,
      text := [.plain "ni hao"] }

/-- C4 witness: decorative bottom cue `{\pos(500,100)}` at `[2000, 2500)`. -/
def c4Ev : AssEvent :=
  { baseEv with
      style := "Sign", startMs := 2000, endMs := 2500,
      text := [.block [.pos 500 100], .plain "t"] }

/-- C4 witness: the sanitized output list for `c4Ev` against top interval
`[1000, 3000)`. -/
def c4Out : List Line :=
  [Line.ev { c4Ev with text := [.block [.pos 500 640], .plain "t"] }]

/-- C5 witness: a karaoke cue `{\k30}Hello{\k40} world`. -/
def c5Ev : AssEvent :=
  { baseEv with
      style := "AnyStyle",
      text := [.block [.kar 30], .plain "Hello", .block [.kar 40], .plain " world"] }

/-- The role a style map assigns to an event's (stripped) style, defaulting
to the style name itself (`style_map.get(st, st)`). -/
def roleOf (sm : SMap) (e : AssEvent) : String :=
  (roleGet sm (pyStrip e.style)).getD (pyStrip e.style)

/-- The `(start, end)` keys of an order list. -/
def timeKeysOf (l : List OKey) : List (Int × Int) :=
  l.filterMap fun k => match k with | .timeKey k => some k | _ => none

/-- The per-tag part of the frame-half test the top-half invariant asks
for: `\pos` strictly above the midline, both `\move` endpoints strictly
above it, `\an` in the middle or top rows. -/
def tagTopHalfOK : AssTag → Bool
  | .pos _ y => decide (y < 540)
  | .move _ y1 _ y2 _ => decide (y1 < 540) && decide (y2 < 540)
  | .an n => decide (4 ≤ n) && decide (n ≤ 9)
  | _ => true

/-- The top-half invariant for one normalized event: every positioning tag
it carries resolves to the top half, and an event carrying no positioning
tag has been assigned a top role. -/
def eventTopHalf (e : AssEvent) : Bool :=
  (allTags e.text).all tagTopHalfOK
    && (!textTagFree e.text
        || (pyStrip e.style == "Top-Primary" || pyStrip e.style == "Top-Secondary"))

/-- Restriction under which the top-half invariant is provable: single-digit
`\an`, `\pos`/`\move` ordinates below the 1080 canvas bottom and away from
the exact midline 540, and no `\org` tag. -/
def goodTag : AssTag → Bool
  | .an n => decide (n ≤ 9)
  | .pos _ y => decide (y < 1080) && decide (y ≠ 540)
  | .move _ y1 _ y2 _ => decide (y1 < 1080) && decide (y1 ≠ 540)
      && decide (y2 < 1080) && decide (y2 ≠ 540)
  | .org _ _ => false
  | _ => true

/-- A text whose tags are all good and which carries at most one
positioning tag. -/
def goodText (t : AssText) : Bool :=
  (allTags t).all goodTag && decide ((allTags t).countP AssTag.isPositioning ≤ 1)

/-- C1 example: an explicitly positioned event exactly on the midline. -/
def c1Ev : AssEvent := { baseEv with text := [.block [.pos 500 540], .plain "hi"] }

/-- Style map used by the C1 and C2 examples. -/
def cMapTP : SMap := [("Default", "Top-Primary")]

/-- C2 example: two explicitly positioned dialogue events sharing one
interval, both of a style mapped to `Top-Primary`. -/
def c2EvA : AssEvent := { baseEv with text := [.block [.pos 100 100], .plain "a"] }

/-- Second event of the C2 example. -/
def c2EvB : AssEvent := { baseEv with text := [.block [.pos 100 100], .plain "b"] }

/-- C1 witness example: a bottom-positioned explicit event. -/
def c1WEv : AssEvent := { baseEv with text := [.block [.pos 100 600], .plain "w"] }

/-- C1 witness example: its normalized output. -/
def c1WOut : List Line :=
  [Line.ev { baseEv with text := [.block [.pos 100 60], .plain "w"] }]

/-- Counting predicate for the no-duplicates invariant: a `Dialogue`-kind
event of the given mapped role with the given exact interval. -/
def cntPred (sm : SMap) (role : String) (s t : Int) (e : AssEvent) : Bool :=
  decide (e.startMs = s) && decide (e.endMs = t) && (roleOf sm e == role)
    && decide (e.kind = EvKind.dialogue)

/-- C2 witness example: two plain `Default` dialogues on one interval. -/
def c2WEvA : AssEvent := { baseEv with text := [.plain "a"] }

/-- Second event of the C2 witness example. -/
def c2WEvB : AssEvent := { baseEv with text := [.plain "b"] }

/-- C2 witness example: the normalized output (second event demoted). -/
def c2WOut : List Line :=
  [Line.ev { c2WEvA with style := "Top-Primary" },
   Line.ev { c2WEvB with style := "Top-Primary", kind := .comment }]

/-- C6 counterexample: a top `Comment` with a bottom-half position tag. -/
def c6Ev : AssEvent :=
  { baseEv with kind := .comment, text := [.block [.pos 100 600], .plain "n"] }

/-- C6 witness: a top `Comment` with an unmapped style and tag-free text. -/
def c6WEv : AssEvent :=
  { baseEv with kind := .comment, style := "Note", text := [.plain "memo"] }

/-- C6 witness: the merged output for `[c6WEv]` against an empty bottom. -/
def c6WOut : List Line := [Line.ev c6WEv]

/-- C10 counterexample: a passthrough-styled bottom cue positioned in the
top half with no colliding top interval. -/
def c10Ev : AssEvent :=
  { baseEv with style := "Title", text := [.block [.pos 500 100], .plain "x"] }

/-- C10 witness: a tag-free top event. -/
def c10WTop : AssEvent := { baseEv with text := [.plain "hello"] }

/-- C10 witness: a tag-free bottom event. -/
def c10WBot : AssEvent := { baseEv with style := "Sub-CN", text := [.plain "zh"] }

/-! ## Lemmas about the time codec -/

theorem digitVal_digitCh {d : Nat} (hd : d < 10) : digitVal (digitCh d) = d := by
  interval_cases d <;> rfl

theorem isDigitCh_digitCh {d : Nat} (hd : d < 10) : isDigitCh (digitCh d) = true := by
  interval_cases d <;> rfl

theorem natDigits_ne_nil (n : Nat) : natDigits n ≠ [] := by
  unfold natDigits
  split
  · simp
  · simp

theorem natDigits_all_digits (n : Nat) : ∀ c ∈ natDigits n, isDigitCh c = true := by
  induction n using Nat.strong_induction_on with
  | _ n ih =>
    unfold natDigits
    split
    · next h =>
      intro c hc
      simp only [List.mem_singleton] at hc
      subst hc
      exact isDigitCh_digitCh h
    · next h =>
      intro c hc
      simp only [List.mem_append, List.mem_singleton] at hc
      rcases hc with hc | hc
      · exact ih (n / 10) (Nat.div_lt_self (by omega) (by omega)) c hc
      · subst hc
        exact isDigitCh_digitCh (Nat.mod_lt _ (by omega))

theorem foldl_digits_step (l : List Char) (a : Nat) :
    l.foldl (fun a c => 10 * a + digitVal c) a
      = a * 10 ^ l.length + digitsVal l := by
  induction l generalizing a with
  | nil => simp [digitsVal]
  | cons c cs ih =>
    have h1 : digitsVal (c :: cs) = digitVal c * 10 ^ cs.length + digitsVal cs := by
      simp only [digitsVal, List.foldl_cons]
      rw [ih]
      simp [digitsVal]
    simp only [List.foldl_cons]
    rw [ih, h1, List.length_cons, pow_succ]
    ring

theorem digitsVal_natDigits (n : Nat) : digitsVal (natDigits n) = n := by
  induction n using Nat.strong_induction_on with
  | _ n ih =>
    unfold natDigits
    split
    · next h =>
      simp [digitsVal, digitVal_digitCh h]
    · next h =>
      simp only [digitsVal, List.foldl_append, List.foldl_cons, List.foldl_nil]
      have hrec : (natDigits (n / 10)).foldl (fun a c => 10 * a + digitVal c) 0
          = n / 10 := ih (n / 10) (Nat.div_lt_self (by omega) (by omega))
      rw [hrec, digitVal_digitCh (Nat.mod_lt _ (by omega))]
      omega

theorem parseIntCh_digits {l : List Char} (hne : l ≠ [])
    (hd : ∀ c ∈ l, isDigitCh c = true) :
    parseIntCh l = some ((digitsVal l : Nat) : Int) := by
  cases l with
  | nil => exact absurd rfl hne
  | cons c cs =>
    have hc : isDigitCh c = true := hd c (by simp)
    have hcm : (c == '-') = false := by
      have : c ≠ '-' := by
        intro e
        subst e
        simp [isDigitCh] at hc
      simpa using this
    simp only [parseIntCh, hcm, if_false, Bool.false_eq_true]
    rw [if_pos]
    simp only [List.all_eq_true]
    intro x hx
    exact hd x hx

theorem digitsVal_pad2 {l : List Char} : digitsVal (pad2 l) = digitsVal l := by
  unfold pad2
  split
  · simp [digitsVal, digitVal]
  · rfl

theorem pad2_digits {l : List Char} (hd : ∀ c ∈ l, isDigitCh c = true) :
    ∀ c ∈ pad2 l, isDigitCh c = true := by
  unfold pad2
  split
  · intro c hc
    simp only [List.mem_cons] at hc
    rcases hc with hc | hc
    · subst hc; rfl
    · exact hd c hc
  · exact hd

theorem pad2_ne_nil (l : List Char) : pad2 l ≠ [] := by
  unfold pad2
  split
  · simp
  · next h =>
    intro e
    subst e
    simp at h

theorem parseIntCh_pad2_digits {l : List Char}
    (hd : ∀ c ∈ l, isDigitCh c = true) :
    parseIntCh (pad2 l) = some ((digitsVal l : Nat) : Int) := by
  rw [parseIntCh_digits (pad2_ne_nil l) (pad2_digits hd), digitsVal_pad2]

theorem splitOnCh_not_mem {c : Char} {l : List Char} (h : ∀ x ∈ l, x ≠ c) :
    splitOnCh c l = [l] := by
  induction l with
  | nil => rfl
  | cons x xs ih =>
    have hx : (x == c) = false := by simpa using h x (by simp)
    simp only [splitOnCh, hx, Bool.false_eq_true, if_false]
    rw [ih (fun y hy => h y (by simp [hy]))]

theorem splitOnCh_append {c : Char} {a b : List Char} (h : ∀ x ∈ a, x ≠ c) :
    splitOnCh c (a ++ c :: b) = a :: splitOnCh c b := by
  induction a with
  | nil => simp [splitOnCh]
  | cons x xs ih =>
    have hx : (x == c) = false := by simpa using h x (by simp)
    simp only [List.cons_append, splitOnCh, hx, Bool.false_eq_true, if_false]
    have hxs : xs.append (c :: b) = xs ++ c :: b := rfl
    rw [hxs, ih (fun y hy => h y (by simp [hy]))]

theorem digit_ne_colon {x : Char} (hx : isDigitCh x = true) : x ≠ ':' := by
  intro e
  subst e
  simp [isDigitCh] at hx

theorem digit_ne_dot {x : Char} (hx : isDigitCh x = true) : x ≠ '.' := by
  intro e
  subst e
  simp [isDigitCh] at hx

theorem intDigits_natCast (n : Nat) : intDigits ((n : Nat) : Int) = natDigits n := by
  unfold intDigits
  rw [if_neg (by simp)]
  simp

theorem ms_to_ass_time_eq (h m s cs : Nat) (hm : m < 60) (hs : s < 60)
    (hcs : cs < 100) :
    ms_to_ass_time (((h * 3600 + m * 60 + s) * 1000 + cs * 10 : Nat) : Int)
      = ⟨natDigits h ++ ':' :: pad2 (natDigits m) ++ ':' :: pad2 (natDigits s)
          ++ '.' :: pad2 (natDigits cs)⟩ := by
  have hmsv : (((h * 3600 + m * 60 + s) * 1000 + cs * 10 : Nat) : Int)
      = 3600000 * (h : Int) + 60000 * (m : Int) + 1000 * (s : Int) + 10 * (cs : Int) := by
    push_cast
    ring
  have hmI : (m : Int) < 60 := by exact_mod_cast hm
  have hsI : (s : Int) < 60 := by exact_mod_cast hs
  have hcsI : (cs : Int) < 100 := by exact_mod_cast hcs
  have hm0 : (0 : Int) ≤ (m : Int) := Int.natCast_nonneg m
  have hs0 : (0 : Int) ≤ (s : Int) := Int.natCast_nonneg s
  have hcs0 : (0 : Int) ≤ (cs : Int) := Int.natCast_nonneg cs
  have hh0 : (0 : Int) ≤ (h : Int) := Int.natCast_nonneg h
  have hdiv36 : ∀ a : Nat, ((a : Nat) : Int).ediv (3600000 : Int)
      = ((a / 3600000 : Nat) : Int) := fun _ => rfl
  have hmod36 : ∀ a : Nat, ((a : Nat) : Int).emod (3600000 : Int)
      = ((a % 3600000 : Nat) : Int) := fun _ => rfl
  have hdiv60 : ∀ a : Nat, ((a : Nat) : Int).ediv (60000 : Int)
      = ((a / 60000 : Nat) : Int) := fun _ => rfl
  have hmod60 : ∀ a : Nat, ((a : Nat) : Int).emod (60000 : Int)
      = ((a % 60000 : Nat) : Int) := fun _ => rfl
  have hdiv1k : ∀ a : Nat, ((a : Nat) : Int).ediv (1000 : Int)
      = ((a / 1000 : Nat) : Int) := fun _ => rfl
  have hmod1k : ∀ a : Nat, ((a : Nat) : Int).emod (1000 : Int)
      = ((a % 1000 : Nat) : Int) := fun _ => rfl
  have hdiv10 : ∀ a : Nat, ((a : Nat) : Int).ediv (10 : Int)
      = ((a / 10 : Nat) : Int) := fun _ => rfl
  simp only [ms_to_ass_time]
  rw [hdiv36, hmod36, hdiv60, hmod60, hdiv1k, hmod1k, hdiv10]
  rw [show ((h * 3600 + m * 60 + s) * 1000 + cs * 10) / 3600000 = h from by omega]
  rw [show ((h * 3600 + m * 60 + s) * 1000 + cs * 10) % 3600000
      = 60000 * m + 1000 * s + 10 * cs from by omega]
  rw [show (60000 * m + 1000 * s + 10 * cs) / 60000 = m from by omega]
  rw [show (60000 * m + 1000 * s + 10 * cs) % 60000 = 1000 * s + 10 * cs from by omega]
  rw [show (1000 * s + 10 * cs) / 1000 = s from by omega]
  rw [show (1000 * s + 10 * cs) % 1000 = 10 * cs from by omega]
  rw [show (10 * cs) / 10 = cs from by omega]
  rw [intDigits_natCast h, intDigits_natCast m, intDigits_natCast s,
    intDigits_natCast cs]

theorem ass_time_parse_components (A B C D : List Char)
    (hA : ∀ c ∈ A, isDigitCh c = true) (hB : ∀ c ∈ B, isDigitCh c = true)
    (hC : ∀ c ∈ C, isDigitCh c = true) (hD : ∀ c ∈ D, isDigitCh c = true)
    (hAne : A ≠ []) :
    ass_time_to_ms ⟨A ++ ':' :: pad2 B ++ ':' :: pad2 C ++ '.' :: pad2 D⟩
      = some ((((digitsVal A : Nat) : Int) * 3600 + ((digitsVal B : Nat) : Int) * 60
            + ((digitsVal C : Nat) : Int)) * 1000 + ((digitsVal D : Nat) : Int) * 10) := by
  have hAcolon : ∀ x ∈ A, x ≠ ':' := fun x hx => digit_ne_colon (hA x hx)
  have hBcolon : ∀ x ∈ pad2 B, x ≠ ':' :=
    fun x hx => digit_ne_colon (pad2_digits hB x hx)
  have hCDcolon : ∀ x ∈ pad2 C ++ '.' :: pad2 D, x ≠ ':' := by
    intro x hx
    simp only [List.mem_append, List.mem_cons] at hx
    rcases hx with hx | hx | hx
    · exact digit_ne_colon (pad2_digits hC x hx)
    · subst hx; decide
    · exact digit_ne_colon (pad2_digits hD x hx)
  have hCdot : ∀ x ∈ pad2 C, x ≠ '.' :=
    fun x hx => digit_ne_dot (pad2_digits hC x hx)
  have hDdot : ∀ x ∈ pad2 D, x ≠ '.' :=
    fun x hx => digit_ne_dot (pad2_digits hD x hx)
  unfold ass_time_to_ms
  have hdata : (String.mk (A ++ ':' :: pad2 B ++ ':' :: pad2 C ++ '.' :: pad2 D)).data
      = A ++ ':' :: (pad2 B ++ ':' :: (pad2 C ++ '.' :: pad2 D)) := by
    simp
  rw [hdata]
  rw [splitOnCh_append hAcolon, splitOnCh_append hBcolon,
    splitOnCh_not_mem hCDcolon]
  show (match splitOnCh '.' (pad2 C ++ '.' :: pad2 D) with
    | [s1, c1] => do
      let hv ← parseIntCh A
      let mv ← parseIntCh (pad2 B)
      let sv ← parseIntCh s1
      let csv ← parseIntCh c1
      return (hv * 3600 + mv * 60 + sv) * 1000 + csv * 10
    | _ => none) = _
  rw [splitOnCh_append hCdot, splitOnCh_not_mem hDdot]
  show (do
      let hv ← parseIntCh A
      let mv ← parseIntCh (pad2 B)
      let sv ← parseIntCh (pad2 C)
      let csv ← parseIntCh (pad2 D)
      return (hv * 3600 + mv * 60 + sv) * 1000 + csv * 10 : Option Int) = _
  rw [parseIntCh_digits hAne hA, parseIntCh_pad2_digits hB,
    parseIntCh_pad2_digits hC, parseIntCh_pad2_digits hD]
  rfl

/-- C8.  Time round-trip: for all `h ≥ 0`, `0 ≤ m < 60`, `0 ≤ s < 60`,
`0 ≤ cs < 100` with `ms = (h*3600 + m*60 + s)*1000 + cs*10`, parsing the
formatted timestamp is exact: `_ass_time_to_ms (_ms_to_ass_time ms) = ms`. -/
theorem c8_time_round_trip (h m s cs : Nat) (hm : m < 60) (hs : s < 60)
    (hcs : cs < 100) :
    ass_time_to_ms (ms_to_ass_time (((h * 3600 + m * 60 + s) * 1000 + cs * 10 : Nat) : Int))
      = some (((h * 3600 + m * 60 + s) * 1000 + cs * 10 : Nat) : Int) := by
  rw [ms_to_ass_time_eq h m s cs hm hs hcs]
  rw [ass_time_parse_components (natDigits h) (natDigits m) (natDigits s) (natDigits cs)
    (natDigits_all_digits h) (natDigits_all_digits m) (natDigits_all_digits s)
    (natDigits_all_digits cs) (natDigits_ne_nil h)]
  rw [digitsVal_natDigits, digitsVal_natDigits, digitsVal_natDigits,
    digitsVal_natDigits]
  rw [show (((h * 3600 + m * 60 + s) * 1000 + cs * 10 : Nat) : Int)
      = ((h : Int) * 3600 + (m : Int) * 60 + (s : Int)) * 1000 + (cs : Int) * 10 from by
    push_cast
    ring]

/-! ## Lemmas about the bottom sanitizer -/

theorem sanitize_getElem {evs2 : List Line} {styles2 : List (String × String)}
    {ivs : List (Int × Int)} {out : List Line} {kept : List String} {i : Nat}
    {e : AssEvent}
    (hrun : sanitize_and_map_bottom evs2 styles2 ivs = some (out, kept))
    (hi : evs2[i]? = some (Line.ev e)) :
    out[i]? = some (Line.ev (sanitizeEvent ivs e)) := by
  unfold sanitize_and_map_bottom at hrun
  split at hrun
  · exact absurd hrun (by simp)
  · rw [Option.some_inj, Prod.mk.injEq] at hrun
    obtain ⟨h1, _⟩ := hrun
    subst h1
    rw [List.getElem?_map, hi]
    rfl

theorem proc_not_pass {cf : String} (h : processableStyles.contains cf = true) :
    passthroughStyles.contains cf = false := by
  have hmem : cf = "sub-cn" ∨ cf = "default" ∨ cf = "top" := by
    simpa [processableStyles, List.contains_eq_any_beq] using h
  rcases hmem with h | h | h <;> subst h <;> decide

theorem allTags_force (t : AssText) (b : Bool) :
    allTags (force_vertical_region t b) = (allTags t).map (fixTag b) := by
  induction t with
  | nil => rfl
  | cons i rest ih =>
    cases i with
    | block tgs => simp [allTags, force_vertical_region, blockTags] at ih ⊢; exact ih
    | plain s => simpa [allTags, force_vertical_region, blockTags] using ih

theorem kTagValues_force (t : AssText) (b : Bool) :
    kTagValues (force_vertical_region t b) = kTagValues t := by
  unfold kTagValues
  rw [allTags_force, List.filterMap_map]
  congr 1
  funext tg
  cases tg <;> rfl

theorem leadsWithAn8_hasExpl {t : AssText} (h : leadsWithAn8 t = true) :
    has_explicit_positioning t = true := by
  induction t with
  | nil => exact absurd h (by simp [leadsWithAn8])
  | cons i rest ih =>
    cases i with
    | plain s =>
      unfold leadsWithAn8 at h
      split at h
      · have := ih h
        simp only [has_explicit_positioning, List.any_cons] at this ⊢
        simp [this]
      · exact absurd h (by simp)
    | block tgs =>
      match tgs, h with
      | [.an 8], _ => rfl

theorem sanitizeEvent_style_of_hasPos {ivs : List (Int × Int)} {e : AssEvent}
    (h : has_explicit_positioning e.text = true) :
    (sanitizeEvent ivs e).style = e.style := by
  unfold sanitizeEvent
  simp only [h]
  split
  · split <;> rfl
  · simp only [if_true]
    split <;> rfl

/-! ## C3: raised vs normal bottom style -/

/-- C3.  Raised vs normal bottom style: a processable plain bottom dialogue
cue without explicit positioning and not top-like is remapped to
`Bottom-Primary-Raised` exactly when its interval overlaps a recorded
top-track interval, and to `Bottom-Primary-Normal` otherwise. -/
theorem c3_raised_vs_normal (evs2 : List Line) (styles2 : List (String × String))
    (ivs : List (Int × Int)) (out : List Line) (kept : List String) (i : Nat)
    (e : AssEvent)
    (hrun : sanitize_and_map_bottom evs2 styles2 ivs = some (out, kept))
    (hi : evs2[i]? = some (Line.ev e))
    (_hkind : e.kind = .dialogue)
    (hproc : processableStyles.contains (pyLower (pyStrip e.style)) = true)
    (hkar : isKaraokeOrTemplate e.effect e.text = false)
    (hpos : has_explicit_positioning e.text = false)
    (han8 : leadsWithAn8 e.text = false)
    (htop : pyLower (pyStrip e.style) ≠ "top") :
    out[i]? = some (Line.ev { e with
      style := if collidesWithTop ivs e.startMs e.endMs then "Bottom-Primary-Raised"
               else "Bottom-Primary-Normal",
      text := stripPositioningBlocks e.text }) := by
  rw [sanitize_getElem hrun hi]
  have hcond : passthroughCond e = false := by
    simp only [passthroughCond]
    rw [proc_not_pass hproc, hkar, hproc]
    rfl
  simp only [sanitizeEvent]
  rw [hcond, hpos]
  simp only [Bool.false_eq_true, if_false, han8]
  simp [htop]

/-- Witness for C3 at the spec's example: cue `[2000, 2500)` against top
interval `[1000, 3000)` is mapped to `Bottom-Primary-Raised`. -/
theorem c3_raised_vs_normal_witness :
    processableStyles.contains (pyLower (pyStrip c3Ev.style)) = true
      ∧ isKaraokeOrTemplate c3Ev.effect c3Ev.text = false
      ∧ [Line.ev { c3Ev with style := "Bottom-Primary-Raised" }][0]?
          = some (Line.ev { c3Ev with
              style := if collidesWithTop [(1000, 3000)] c3Ev.startMs c3Ev.endMs
                  then "Bottom-Primary-Raised" else "Bottom-Primary-Normal",
              text := stripPositioningBlocks c3Ev.text }) :=
  ⟨by decide, by decide,
    c3_raised_vs_normal [Line.ev c3Ev] [] [(1000, 3000)]
      [Line.ev { c3Ev with style := "Bottom-Primary-Raised" }] [] 0 c3Ev
      (by decide) (by decide) (by decide) (by decide) (by decide) (by decide)
      (by decide) (by decide)⟩

/-! ## C4: forced-bottom passthrough iff collision -/

/-- C4.  Forced-bottom passthrough iff collision: a passthrough bottom cue
with explicit top-resolved positioning has its text rewritten to the bottom
half exactly when its interval overlaps a recorded top-track interval, and
is emitted verbatim otherwise. -/
theorem c4_forced_bottom_iff_collision (evs2 : List Line)
    (styles2 : List (String × String)) (ivs : List (Int × Int)) (out : List Line)
    (kept : List String) (i : Nat) (e : AssEvent)
    (hrun : sanitize_and_map_bottom evs2 styles2 ivs = some (out, kept))
    (hi : evs2[i]? = some (Line.ev e))
    (hcond : passthroughCond e = true)
    (hpos : has_explicit_positioning e.text = true)
    (htop : is_top_aligned e.text = true) :
    out[i]? = some (Line.ev (if collidesWithTop ivs e.startMs e.endMs
      then { e with text := ensure_bottom_position e.text } else e)) := by
  rw [sanitize_getElem hrun hi]
  unfold sanitizeEvent
  rw [hcond, hpos, htop]
  simp only [if_true, Bool.true_and]

/-- Witness for C4 at the spec's example: `{\pos(500,100)}` at `[2000, 2500)`
against top interval `[1000, 3000)` is rewritten to `{\pos(500,640)}`. -/
theorem c4_forced_bottom_iff_collision_witness :
    passthroughCond c4Ev = true ∧ has_explicit_positioning c4Ev.text = true
      ∧ is_top_aligned c4Ev.text = true
      ∧ c4Out[0]? = some (Line.ev (if collidesWithTop [(1000, 3000)] c4Ev.startMs c4Ev.endMs
          then { c4Ev with text := ensure_bottom_position c4Ev.text } else c4Ev)) :=
  ⟨by decide, by decide, by decide,
    c4_forced_bottom_iff_collision [Line.ev c4Ev] [] [(1000, 3000)] c4Out [] 0 c4Ev
      (by decide) (by decide) (by decide) (by decide) (by decide)⟩

/-! ## C5: karaoke passthrough -/

/-- C5.  Karaoke passthrough: a bottom event whose text contains a `\k` tag
keeps all of its `\k` tags and its style is never remapped. -/
theorem c5_karaoke_passthrough (evs2 : List Line) (styles2 : List (String × String))
    (ivs : List (Int × Int)) (out : List Line) (kept : List String) (i : Nat)
    (e : AssEvent)
    (hrun : sanitize_and_map_bottom evs2 styles2 ivs = some (out, kept))
    (hi : evs2[i]? = some (Line.ev e))
    (hk : hasKaraokeTag e.text = true) :
    ∃ e2, out[i]? = some (Line.ev e2) ∧ e2.style = e.style
      ∧ kTagValues e2.text = kTagValues e.text := by
  rw [sanitize_getElem hrun hi]
  refine ⟨sanitizeEvent ivs e, rfl, ?_, ?_⟩
  · have hcond : passthroughCond e = true := by
      unfold passthroughCond isKaraokeOrTemplate
      rw [hk]
      simp
    unfold sanitizeEvent
    rw [hcond]
    simp only [if_true]
    split <;> rfl
  · have hcond : passthroughCond e = true := by
      unfold passthroughCond isKaraokeOrTemplate
      rw [hk]
      simp
    unfold sanitizeEvent
    rw [hcond]
    simp only [if_true]
    split
    · exact kTagValues_force e.text false
    · rfl

/-- Witness for C5 at `{\k30}Hello{\k40} world`. -/
theorem c5_karaoke_passthrough_witness :
    hasKaraokeTag c5Ev.text = true
      ∧ ∃ e2, [Line.ev c5Ev][0]? = some (Line.ev e2) ∧ e2.style = c5Ev.style
          ∧ kTagValues e2.text = kTagValues c5Ev.text :=
  ⟨by decide,
    c5_karaoke_passthrough [Line.ev c5Ev] [] [] [Line.ev c5Ev] [] 0 c5Ev
      (by decide) (by decide) (by decide)⟩

/-! ## C9: `{\an8}` remap -/

/-- C9 counterexample: a processable dialogue cue starting with the literal
`{\an8}` block is not remapped to `Bottom-Secondary`: because `\an8` counts
as explicit positioning, it takes the positioned branch and keeps its
original style (here the whole event passes through unchanged). -/
theorem c9_counterexample :
    sanitize_and_map_bottom [Line.ev c9Ev] [] [] = some ([Line.ev c9Ev], [])
      ∧ c9Ev.text = [TextItem.block [AssTag.an 8], TextItem.plain "Hi"]
      ∧ pyLower (pyStrip c9Ev.style) = "default"
      ∧ c9Ev.style ≠ "Bottom-Secondary" := by
  refine ⟨by decide, by decide, by decide, by decide⟩

/-- C9 amended: a bottom cue whose text begins with `{\an8}` carries
explicit positioning, so `_sanitize_and_map_bottom` emits it through the
positioned paths with its style field unchanged; the `Bottom-Secondary`
remap applies exactly to the processable plain cues (no explicit
positioning, not karaoke) whose style name case-folds to `top`. -/
theorem c9_an8_amended (evs2 : List Line) (styles2 : List (String × String))
    (ivs : List (Int × Int)) (out : List Line) (kept : List String) (i : Nat)
    (e : AssEvent)
    (hrun : sanitize_and_map_bottom evs2 styles2 ivs = some (out, kept))
    (hi : evs2[i]? = some (Line.ev e)) :
    (leadsWithAn8 e.text = true →
      ∃ e2, out[i]? = some (Line.ev e2) ∧ e2.style = e.style)
    ∧ (has_explicit_positioning e.text = false →
        isKaraokeOrTemplate e.effect e.text = false →
        pyLower (pyStrip e.style) = "top" →
        out[i]? = some (Line.ev { e with
          style := "Bottom-Secondary",
          text := stripPositioningBlocks e.text })) := by
  constructor
  · intro h8
    rw [sanitize_getElem hrun hi]
    exact ⟨sanitizeEvent ivs e, rfl,
      sanitizeEvent_style_of_hasPos (leadsWithAn8_hasExpl h8)⟩
  · intro hpos hkar htop
    rw [sanitize_getElem hrun hi]
    have hcond : passthroughCond e = false := by
      unfold passthroughCond
      rw [hkar, htop]
      decide
    unfold sanitizeEvent
    rw [hcond, hpos]
    simp [htop]

/-- Witness for C9 amended at `c9Ev` (an `{\an8}` cue). -/
theorem c9_an8_amended_witness :
    (leadsWithAn8 c9Ev.text = true →
      ∃ e2, [Line.ev c9Ev][0]? = some (Line.ev e2) ∧ e2.style = c9Ev.style)
    ∧ (has_explicit_positioning c9Ev.text = false →
        isKaraokeOrTemplate c9Ev.effect c9Ev.text = false →
        pyLower (pyStrip c9Ev.style) = "top" →
        [Line.ev c9Ev][0]? = some (Line.ev { c9Ev with
          style := "Bottom-Secondary",
          text := stripPositioningBlocks c9Ev.text })) :=
  c9_an8_amended [Line.ev c9Ev] [] [] [Line.ev c9Ev] [] 0 c9Ev (by decide) (by decide)

/-- Witness for C8 at `h = 1, m = 2, s = 3, cs = 45`. -/
theorem c8_time_round_trip_witness :
    2 < 60 ∧ 3 < 60 ∧ 45 < 100
      ∧ ass_time_to_ms (ms_to_ass_time (((1 * 3600 + 2 * 60 + 3) * 1000 + 45 * 10 : Nat) : Int))
          = some (((1 * 3600 + 2 * 60 + 3) * 1000 + 45 * 10 : Nat) : Int) :=
  ⟨by decide, by decide, by decide,
    c8_time_round_trip 1 2 3 45 (by decide) (by decide) (by decide)⟩

/-! ## C7: single-bad-line tolerance -/

theorem collect_change_points_none {l : List Line} (h : hasBadLine l = true)
    (f : String → Bool) : collect_change_points l f = none := by
  induction l with
  | nil => simp [hasBadLine] at h
  | cons x rest ih =>
    cases x with
    | bad s => rfl
    | raw s =>
      exact ih (by simpa [hasBadLine] using h)
    | ev e =>
      have hr := ih (by simpa [hasBadLine] using h)
      simp [collect_change_points, hr]

theorem normalize_top_none {events : List Line} (h : hasBadLine events = true)
    (sm : SMap) : normalize_top events sm = none := by
  simp [normalize_top, normalizeSplits, collect_change_points_none h]

/-- C7 counterexample: a pair of inputs whose top track contains exactly one
malformed event line (a `Dialogue:` line with fewer than ten fields) makes
the whole merge fail (`none`, no output path); the same inputs without the
malformed line succeed. -/
theorem c7_counterexample :
    merge_subs_for_batch [("Default", "Style: Default,...")]
        [Line.ev baseEv, Line.bad "Dialogue: oops"] [] [] = none
      ∧ merge_subs_for_batch [("Default", "Style: Default,...")]
          [Line.ev baseEv] [] [] ≠ none :=
  ⟨by decide, by decide⟩

/-- C7 amended: the engine tolerates malformed lines only at parse time
(non-`Style:` lines in the styles section are ignored, non-event lines in
the events section are skipped); a malformed *event* line in either track
makes that job's merge raise and return failure rather than skipping the
line. -/
theorem c7_bad_line_fails (styles1 : List (String × String)) (events1 : List Line)
    (styles2 : List (String × String)) (events2 : List Line)
    (hbad : hasBadLine events1 = true ∨ hasBadLine events2 = true) :
    merge_subs_for_batch styles1 events1 styles2 events2 = none := by
  rcases hbad with hbad | hbad
  · cases hc : create_top_style_map styles1 events1 with
    | none => simp [merge_subs_for_batch, hc]
    | some sm => simp [merge_subs_for_batch, hc, normalize_top_none hbad]
  · cases hc : create_top_style_map styles1 events1 with
    | none => simp [merge_subs_for_batch, hc]
    | some sm =>
      cases ht : normalize_top events1 sm with
      | none => simp [merge_subs_for_batch, hc, ht]
      | some top =>
        cases he : englishIntervals top with
        | none => simp [merge_subs_for_batch, hc, ht, he]
        | some ivs =>
          simp [merge_subs_for_batch, hc, ht, he, sanitize_and_map_bottom, hbad]

/-- Witness for C7 amended: a malformed event line in the bottom track. -/
theorem c7_bad_line_fails_witness :
    (hasBadLine [Line.ev baseEv] = true ∨ hasBadLine [Line.bad "Comment: x"] = true)
      ∧ merge_subs_for_batch [("Default", "Style: Default,...")] [Line.ev baseEv]
          [] [Line.bad "Comment: x"] = none :=
  ⟨Or.inr (by decide),
    c7_bad_line_fails [("Default", "Style: Default,...")] [Line.ev baseEv]
      [] [Line.bad "Comment: x"] (Or.inr (by decide))⟩

/-! ## Structural lemmas about the top normalizer -/

theorem parsedEvents_cons_ev (e : AssEvent) (rest : List Line) :
    parsedEvents (Line.ev e :: rest) = e :: parsedEvents rest := rfl

theorem parsedEvents_cons_raw (s : String) (rest : List Line) :
    parsedEvents (Line.raw s :: rest) = parsedEvents rest := rfl

theorem parsedEvents_append (l1 l2 : List Line) :
    parsedEvents (l1 ++ l2) = parsedEvents l1 ++ parsedEvents l2 := by
  simp [parsedEvents]

theorem parsedEvents_map_ev (xs : List AssEvent) :
    parsedEvents (xs.map Line.ev) = xs := by
  induction xs with
  | nil => rfl
  | cons x r ih => rw [List.map_cons, parsedEvents_cons_ev, ih]

theorem splitOne_core {pts : List Int} {e e2 : AssEvent} (h : e2 ∈ splitOne pts e) :
    e2.kind = e.kind ∧ e2.style = e.style ∧ e2.text = e.text := by
  simp only [splitOne] at h
  split at h
  · rw [List.mem_singleton] at h
    subst h
    exact ⟨rfl, rfl, rfl⟩
  · rw [List.mem_map] at h
    obtain ⟨p, _, he2⟩ := h
    subst he2
    exact ⟨rfl, rfl, rfl⟩

theorem splitGo_mem {pts : List Int} {pred : String → Bool} :
    ∀ {lines out : List Line}, splitGo pts pred lines = some out →
      ∀ e2 ∈ parsedEvents out, ∃ e1 ∈ parsedEvents lines,
        e2.kind = e1.kind ∧ e2.style = e1.style ∧ e2.text = e1.text := by
  intro lines
  induction lines with
  | nil =>
    intro out h e2 he2
    rw [splitGo, Option.some_inj] at h
    subst h
    simp [parsedEvents] at he2
  | cons x rest ih =>
    intro out h e2 he2
    cases x with
    | bad s => exact absurd h (by rw [splitGo]; simp)
    | raw s =>
      rw [splitGo] at h
      cases hr : splitGo pts pred rest with
      | none => rw [hr] at h; exact absurd h (by simp)
      | some o2 =>
        rw [hr, Option.map_some', Option.some_inj] at h
        subst h
        rw [parsedEvents_cons_raw] at he2
        obtain ⟨e1, h1, hc⟩ := ih hr e2 he2
        exact ⟨e1, by rw [parsedEvents_cons_raw]; exact h1, hc⟩
    | ev e =>
      rw [splitGo] at h
      cases hr : splitGo pts pred rest with
      | none => rw [hr] at h; exact absurd h (by simp)
      | some o2 =>
        rw [hr, Option.map_some', Option.some_inj] at h
        subst h
        by_cases hp : pred (pyStrip e.style) = true
        · rw [if_pos hp] at he2
          rw [parsedEvents_append, parsedEvents_map_ev, List.mem_append] at he2
          rcases he2 with he2 | he2
          · exact ⟨e, by rw [parsedEvents_cons_ev]; exact List.mem_cons_self e _,
              splitOne_core he2⟩
          · obtain ⟨e1, h1, hc⟩ := ih hr e2 he2
            exact ⟨e1, by rw [parsedEvents_cons_ev]; exact List.mem_cons_of_mem e h1, hc⟩
        · rw [if_neg hp] at he2
          rw [parsedEvents_cons_ev, List.mem_cons] at he2
          rcases he2 with he2 | he2
          · subst he2
            exact ⟨e2, by rw [parsedEvents_cons_ev]; exact List.mem_cons_self e2 _,
              rfl, rfl, rfl⟩
          · obtain ⟨e1, h1, hc⟩ := ih hr e2 he2
            exact ⟨e1, by rw [parsedEvents_cons_ev]; exact List.mem_cons_of_mem e h1, hc⟩

theorem split_events_mem {lines out : List Line} {pts : List Int}
    {pred : String → Bool} (h : split_events_on_points lines pts pred = some out) :
    ∀ e2 ∈ parsedEvents out, ∃ e1 ∈ parsedEvents lines,
      e2.kind = e1.kind ∧ e2.style = e1.style ∧ e2.text = e1.text := by
  unfold split_events_on_points at h
  split at h
  · rw [Option.some_inj] at h
    subst h
    intro e2 he2
    exact ⟨e2, he2, rfl, rfl, rfl⟩
  · exact splitGo_mem h

theorem splitGo_untouched {pts : List Int} {pred : String → Bool} :
    ∀ {lines out : List Line}, splitGo pts pred lines = some out →
      ∀ e ∈ parsedEvents lines, pred (pyStrip e.style) = false →
        e ∈ parsedEvents out := by
  intro lines
  induction lines with
  | nil =>
    intro out h e he
    simp [parsedEvents] at he
  | cons x rest ih =>
    intro out h e he hp
    cases x with
    | bad s => exact absurd h (by rw [splitGo]; simp)
    | raw s =>
      rw [splitGo] at h
      cases hr : splitGo pts pred rest with
      | none => rw [hr] at h; exact absurd h (by simp)
      | some o2 =>
        rw [hr, Option.map_some', Option.some_inj] at h
        subst h
        rw [parsedEvents_cons_raw] at he ⊢
        exact ih hr e he hp
    | ev e1 =>
      rw [splitGo] at h
      cases hr : splitGo pts pred rest with
      | none => rw [hr] at h; exact absurd h (by simp)
      | some o2 =>
        rw [hr, Option.map_some', Option.some_inj] at h
        subst h
        rw [parsedEvents_cons_ev, List.mem_cons] at he
        rcases he with he | he
        · subst he
          rw [if_neg (by rw [hp]; simp)]
          rw [parsedEvents_cons_ev]
          exact List.mem_cons_self e _
        · have hmem := ih hr e he hp
          by_cases hq : pred (pyStrip e1.style) = true
          · rw [if_pos hq, parsedEvents_append, List.mem_append]
            exact Or.inr hmem
          · rw [if_neg hq, parsedEvents_cons_ev]
            exact List.mem_cons_of_mem e1 hmem

theorem split_events_untouched {lines out : List Line} {pts : List Int}
    {pred : String → Bool} (h : split_events_on_points lines pts pred = some out)
    {e : AssEvent} (he : e ∈ parsedEvents lines)
    (hp : pred (pyStrip e.style) = false) : e ∈ parsedEvents out := by
  unfold split_events_on_points at h
  split at h
  · rw [Option.some_inj] at h
    subst h
    exact he
  · exact splitGo_untouched h e he hp

theorem normalizeSplits_cases {evs ev2 : List Line} {sm : SMap}
    (h : normalizeSplits evs sm = some ev2) :
    ∃ pPts ev1 sPts,
      collect_change_points evs (fun st => roleGet sm st == some "Top-Primary") = some pPts
      ∧ split_events_on_points evs pPts
          (fun st => roleGet sm st == some "Top-Secondary") = some ev1
      ∧ collect_change_points ev1 (fun st => roleGet sm st == some "Top-Secondary") = some sPts
      ∧ split_events_on_points ev1 sPts
          (fun st => roleGet sm st == some "Top-Primary") = some ev2 := by
  simp only [normalizeSplits, Option.bind_eq_bind, Option.bind_eq_some] at h
  obtain ⟨pPts, h1, ev1, h2, sPts, h3, h4⟩ := h
  exact ⟨pPts, ev1, sPts, h1, h2, h3, h4⟩

theorem normalizeSplits_mem {evs ev2 : List Line} {sm : SMap}
    (h : normalizeSplits evs sm = some ev2) :
    ∀ e2 ∈ parsedEvents ev2, ∃ e1 ∈ parsedEvents evs,
      e2.kind = e1.kind ∧ e2.style = e1.style ∧ e2.text = e1.text := by
  obtain ⟨pPts, ev1, sPts, _, h2, _, h4⟩ := normalizeSplits_cases h
  intro e2 he2
  obtain ⟨eM, hM, k1, s1, t1⟩ := split_events_mem h4 e2 he2
  obtain ⟨e1, h1, k2, s2, t2⟩ := split_events_mem h2 eM hM
  exact ⟨e1, h1, k1.trans k2, s1.trans s2, t1.trans t2⟩

/-! ## Structural lemmas about the bucket phase -/

theorem bucketOf_mem {lines : List Line} {k : Int × Int} {e : AssEvent}
    (h : e ∈ bucketOf lines k) : e ∈ parsedEvents lines ∧ evKey e = k := by
  rw [bucketOf, List.mem_filter] at h
  exact ⟨h.1, by simpa using h.2⟩

theorem demote_mem {l : List AssEvent} {e2 : AssEvent} (h : e2 ∈ demoteSiblings l) :
    ∃ e1 ∈ l, e2 = e1 ∨ e2 = { e1 with kind := .comment } := by
  cases l with
  | nil => simp [demoteSiblings] at h
  | cons p rest =>
    rw [demoteSiblings, List.mem_cons] at h
    rcases h with h | h
    · exact ⟨p, List.mem_cons_self p _, Or.inl h⟩
    · rw [List.mem_map] at h
      obtain ⟨q, hq, he2⟩ := h
      exact ⟨q, List.mem_cons_of_mem p hq, Or.inr he2.symm⟩

theorem emitBucket_mem {emit : SMap → AssEvent → AssEvent} {sm : SMap}
    {b : List AssEvent} {e2 : AssEvent} (h : e2 ∈ emitBucketWith emit sm b) :
    ∃ e1 ∈ b, e2 = emit sm e1 ∨ e2 = emit sm { e1 with kind := .comment } := by
  rw [emitBucketWith, List.mem_map] at h
  obtain ⟨r, hr, he2⟩ := h
  subst he2
  rw [List.mem_append, List.mem_append] at hr
  rcases hr with (hr | hr) | hr
  · obtain ⟨e1, h1, hor⟩ := demote_mem hr
    rw [bucketPrimaries, List.mem_filter] at h1
    rcases hor with hor | hor
    · exact ⟨e1, h1.1, Or.inl (by rw [hor])⟩
    · exact ⟨e1, h1.1, Or.inr (by rw [hor])⟩
  · obtain ⟨e1, h1, hor⟩ := demote_mem hr
    rw [bucketSecondaries, List.mem_filter] at h1
    rcases hor with hor | hor
    · exact ⟨e1, h1.1, Or.inl (by rw [hor])⟩
    · exact ⟨e1, h1.1, Or.inr (by rw [hor])⟩
  · rw [bucketOthers, List.mem_filter] at hr
    exact ⟨r, hr.1, Or.inl rfl⟩

theorem bucketPhase_mem {emit : SMap → AssEvent → AssEvent} {sm : SMap}
    {lines out : List Line} (h : bucketPhaseWith emit sm lines = some out) :
    ∀ e2 ∈ parsedEvents out, ∃ e1 ∈ parsedEvents lines,
      e2 = emit sm e1 ∨ e2 = emit sm { e1 with kind := .comment } := by
  unfold bucketPhaseWith at h
  split at h
  · exact absurd h (by simp)
  · rw [Option.some_inj] at h
    subst h
    intro e2 he2
    rw [parsedEvents, List.filterMap_flatMap] at he2
    rw [List.mem_flatMap] at he2
    obtain ⟨k, _, hk⟩ := he2
    cases k with
    | rawLine s => simp [parsedEvents] at hk
    | timeKey k =>
      have hk2 : e2 ∈ parsedEvents ((emitBucketWith emit sm (bucketOf lines k)).map Line.ev) := hk
      rw [parsedEvents_map_ev] at hk2
      obtain ⟨e1, h1, hor⟩ := emitBucket_mem hk2
      exact ⟨e1, (bucketOf_mem h1).1, hor⟩

theorem normalize_top_mem {evs out : List Line} {sm : SMap}
    (h : normalize_top evs sm = some out) :
    ∀ e2 ∈ parsedEvents out, ∃ p e1, e1 ∈ parsedEvents evs
      ∧ p.style = e1.style ∧ p.text = e1.text ∧ e2 = emitTopEvent sm p := by
  simp only [normalize_top, Option.bind_eq_bind, Option.bind_eq_some] at h
  obtain ⟨ev2, h1, h2⟩ := h
  intro e2 he2
  obtain ⟨eM, hM, hor⟩ := bucketPhase_mem h2 e2 he2
  obtain ⟨e1, h1m, _, hs, ht⟩ := normalizeSplits_mem h1 eM hM
  rcases hor with hor | hor
  · exact ⟨eM, e1, h1m, hs, ht, hor⟩
  · exact ⟨{ eM with kind := .comment }, e1, h1m, hs, ht, hor⟩

/-! ## Tag-level lemmas for the top-half invariant -/

theorem lookup_mem : ∀ {sm : SMap} {st v : String}, sm.lookup st = some v → (st, v) ∈ sm := by
  intro sm
  induction sm with
  | nil => intro st v h; simp [List.lookup] at h
  | cons p rest ih =>
    intro st v h
    obtain ⟨k, b⟩ := p
    rw [List.lookup] at h
    by_cases hk : (st == k) = true
    · rw [hk] at h
      rw [Option.some_inj] at h
      subst h
      rw [beq_iff_eq] at hk
      subst hk
      exact List.mem_cons_self _ _
    · rw [Bool.not_eq_true] at hk
      rw [hk] at h
      exact List.mem_cons_of_mem _ (ih h)

theorem tag_mem_allTags {t : AssText} {i : TextItem} {tg : AssTag}
    (hi : i ∈ t) (htg : tg ∈ blockTags i) : tg ∈ allTags t := by
  rw [allTags, List.mem_flatMap]
  exact ⟨i, hi, htg⟩

theorem blockHasOrg_false_of_good {t : AssText}
    (hall : (allTags t).all goodTag = true) :
    ∀ i ∈ t, blockHasOrg i = false := by
  intro i hi
  rw [blockHasOrg]
  rw [List.any_eq_false]
  intro tg htg
  have hgood : goodTag tg = true := by
    rw [List.all_eq_true] at hall
    exact hall tg (tag_mem_allTags hi htg)
  cases tg <;> simp_all [goodTag]

theorem stripOrg_id {t : AssText} (h : ∀ i ∈ t, blockHasOrg i = false) :
    stripOrgBlocks t = t := by
  rw [stripOrgBlocks]
  rw [List.filter_eq_self]
  intro i hi
  rw [h i hi]
  rfl

theorem fixTag_isPositioning (b : Bool) (tg : AssTag) :
    (fixTag b tg).isPositioning = tg.isPositioning := by
  cases tg <;> rfl

theorem fixTag_org_elim {b : Bool} {tg : AssTag} :
    (∃ x y, fixTag b tg = .org x y) ↔ ∃ x y, tg = .org x y := by
  cases tg <;> simp [fixTag]

theorem force_blockHasOrg {b : Bool} {t : AssText} (h : ∀ i ∈ t, blockHasOrg i = false) :
    ∀ i ∈ force_vertical_region t b, blockHasOrg i = false := by
  intro i hi
  rw [force_vertical_region, List.mem_map] at hi
  obtain ⟨j, hj, hij⟩ := hi
  have hjf := h j hj
  cases j with
  | plain s => subst hij; exact hjf
  | block tgs =>
    subst hij
    rw [blockHasOrg] at hjf ⊢
    rw [List.any_eq_false] at hjf ⊢
    intro tg htg
    rw [blockTags] at htg
    rw [List.mem_map] at htg
    obtain ⟨tg0, htg0, htgf⟩ := htg
    have := hjf tg0 htg0
    subst htgf
    cases tg0 <;> simp_all [fixTag]

theorem fixTag_top_ok {tg : AssTag} (h : goodTag tg = true) :
    tagTopHalfOK (fixTag true tg) = true := by
  cases tg with
  | an n =>
    have hn : n ≤ 9 := by simpa [goodTag] using h
    interval_cases n <;> decide
  | pos x y =>
    simp only [goodTag, Bool.and_eq_true, decide_eq_true_eq] at h
    show tagTopHalfOK (.pos x (if 540 < y then y - 540 else y)) = true
    simp only [tagTopHalfOK, decide_eq_true_eq]
    split <;> omega
  | move x1 y1 x2 y2 r =>
    simp only [goodTag, Bool.and_eq_true, decide_eq_true_eq] at h
    show tagTopHalfOK (.move x1 (if 540 < y1 then y1 - 540 else y1)
        x2 (if 540 < y2 then y2 - 540 else y2) r) = true
    simp only [tagTopHalfOK, Bool.and_eq_true, decide_eq_true_eq]
    constructor <;> (split <;> omega)
  | org x y => exact absurd h (by simp [goodTag])
  | kar n => rfl
  | other nm => rfl

theorem nonpos_top_ok {tg : AssTag} (h : tg.isPositioning = false) :
    tagTopHalfOK tg = true := by
  cases tg <;> simp_all [AssTag.isPositioning, tagTopHalfOK]

theorem hasExpl_exists_tag {t : AssText} (h : has_explicit_positioning t = true) :
    ∃ tg ∈ allTags t, tg.isPositioning = true := by
  rw [has_explicit_positioning, List.any_eq_true] at h
  obtain ⟨i, hi, hblk⟩ := h
  cases i with
  | plain s => exact absurd hblk (by simp)
  | block tgs =>
    cases tgs with
    | nil => exact absurd hblk (by simp)
    | cons tg rest =>
      exact ⟨tg, tag_mem_allTags hi (List.mem_cons_self tg rest), hblk⟩

theorem findSome_none_of_filter_nil {β : Type} {f : AssTag → Option β}
    (hf : ∀ q, (f q).isSome = true → q.isPositioning = true) :
    ∀ {l : List AssTag}, l.filter AssTag.isPositioning = [] →
      l.findSome? f = none := by
  intro l
  induction l with
  | nil => intro _; rfl
  | cons a rest ih =>
    intro hl
    rw [List.filter_cons] at hl
    by_cases ha : a.isPositioning = true
    · rw [if_pos ha] at hl
      exact absurd hl (by simp)
    · rw [Bool.not_eq_true] at ha
      rw [if_neg (by rw [ha]; simp)] at hl
      have hfa : f a = none := by
        cases hfa : f a with
        | none => rfl
        | some b =>
          have := hf a (by rw [hfa]; rfl)
          rw [this] at ha
          exact absurd ha (by simp)
      rw [List.findSome?_cons, hfa]
      exact ih hl

theorem findSome_of_filter_singleton {β : Type} {f : AssTag → Option β}
    (hf : ∀ q, (f q).isSome = true → q.isPositioning = true) :
    ∀ {l : List AssTag} {P : AssTag}, l.filter AssTag.isPositioning = [P] →
      l.findSome? f = f P := by
  intro l
  induction l with
  | nil => intro P h; exact absurd h (by simp)
  | cons a rest ih =>
    intro P hl
    rw [List.filter_cons] at hl
    by_cases ha : a.isPositioning = true
    · rw [if_pos ha] at hl
      rw [List.cons_eq_cons] at hl
      obtain ⟨haP, hrest⟩ := hl
      subst haP
      rw [List.findSome?_cons]
      cases hfa : f a with
      | some b => rfl
      | none => exact findSome_none_of_filter_nil hf hrest
    · rw [Bool.not_eq_true] at ha
      rw [if_neg (by rw [ha]; simp)] at hl
      have hfa : f a = none := by
        cases hfa : f a with
        | none => rfl
        | some b =>
          have := hf a (by rw [hfa]; rfl)
          rw [this] at ha
          exact absurd ha (by simp)
      rw [List.findSome?_cons, hfa]
      exact ih hl

theorem posExtract_positioning :
    ∀ q : AssTag, (posExtract q).isSome = true → q.isPositioning = true := by
  intro q hq
  cases q <;> simp_all [posExtract, AssTag.isPositioning]

theorem moveExtract_positioning :
    ∀ q : AssTag, (moveExtract q).isSome = true → q.isPositioning = true := by
  intro q hq
  cases q <;> simp_all [moveExtract, AssTag.isPositioning]

theorem anExtract_positioning :
    ∀ q : AssTag, (anExtract q).isSome = true → q.isPositioning = true := by
  intro q hq
  cases q <;> simp_all [anExtract, AssTag.isPositioning]

theorem textTagFree_false_of_mem {t : AssText} {tg : AssTag}
    (htg : tg ∈ allTags t) (hp : tg.isPositioning = true) :
    textTagFree t = false := by
  cases hft : textTagFree t with
  | false => rfl
  | true =>
    rw [textTagFree, List.all_eq_true] at hft
    have := hft tg htg
    rw [hp] at this
    exact absurd this (by simp)

theorem filter_singleton_of_cnt {t : AssText}
    (hcnt : (allTags t).countP AssTag.isPositioning ≤ 1)
    (hex : has_explicit_positioning t = true) :
    ∃ P, (allTags t).filter AssTag.isPositioning = [P] := by
  obtain ⟨tg, htg, htp⟩ := hasExpl_exists_tag hex
  have hmem : tg ∈ (allTags t).filter AssTag.isPositioning :=
    List.mem_filter.mpr ⟨htg, htp⟩
  have hlen : ((allTags t).filter AssTag.isPositioning).length ≤ 1 := by
    rw [← List.countP_eq_length_filter]
    exact hcnt
  cases hf : (allTags t).filter AssTag.isPositioning with
  | nil => rw [hf] at hmem; simp at hmem
  | cons P rest =>
    rw [hf, List.length_cons] at hlen
    have : rest = [] := List.length_eq_zero.mp (by omega)
    exact ⟨P, by rw [this]⟩

theorem emitTop_good {sm : SMap} {p : AssEvent}
    (hv : ∀ q ∈ sm, q.2 = "Top-Primary" ∨ q.2 = "Top-Secondary")
    (hg : goodText p.text = true)
    (hm : (roleGet sm (pyStrip p.style)).isSome = true) :
    eventTopHalf (emitTopEvent sm p) = true := by
  rw [goodText, Bool.and_eq_true, decide_eq_true_eq] at hg
  obtain ⟨hall, hcnt⟩ := hg
  have hallm := List.all_eq_true.mp hall
  have horg : ∀ i ∈ p.text, blockHasOrg i = false := blockHasOrg_false_of_good hall
  have hstripforce : stripOrgBlocks (ensure_top_position p.text)
      = ensure_top_position p.text :=
    stripOrg_id (force_blockHasOrg horg)
  have hforce_tags :
      (allTags (ensure_top_position p.text)).all tagTopHalfOK = true := by
    rw [ensure_top_position, allTags_force, List.all_eq_true]
    intro tg htg
    rw [List.mem_map] at htg
    obtain ⟨tg0, h0, htg0⟩ := htg
    subst htg0
    exact fixTag_top_ok (hallm tg0 h0)
  unfold emitTopEvent
  by_cases hex : has_explicit_positioning p.text = true
  · rw [if_pos hex]
    obtain ⟨P, hP⟩ := filter_singleton_of_cnt hcnt hex
    have hPmemf : P ∈ (allTags p.text).filter AssTag.isPositioning := by
      rw [hP]
      exact List.mem_singleton_self P
    have hPmem : P ∈ allTags p.text := (List.mem_filter.mp hPmemf).1
    have hPpos : P.isPositioning = true := (List.mem_filter.mp hPmemf).2
    have hPgood : goodTag P = true := hallm P hPmem
    by_cases hta : is_top_aligned p.text = true
    · rw [if_neg (by rw [hta]; simp)]
      rw [eventTopHalf]
      have htx : ({ p with text := stripOrgBlocks p.text } : AssEvent).text
          = p.text := by
        rw [stripOrg_id horg]
      rw [htx]
      have hA : (allTags p.text).all tagTopHalfOK = true := by
        rw [List.all_eq_true]
        intro tg htg
        by_cases htp : tg.isPositioning = true
        · have : tg ∈ (allTags p.text).filter AssTag.isPositioning :=
            List.mem_filter.mpr ⟨htg, htp⟩
          rw [hP, List.mem_singleton] at this
          subst this
          cases tg with
          | pos x y =>
            have hfp : firstPosTag p.text = some (x, y) := by
              rw [firstPosTag]
              rw [findSome_of_filter_singleton posExtract_positioning hP]
              rfl
            unfold is_top_aligned at hta
            rw [hfp] at hta
            rw [tagTopHalfOK]
            exact hta
          | move x1 y1 x2 y2 r =>
            have hfp : firstPosTag p.text = none := by
              rw [firstPosTag]
              rw [findSome_of_filter_singleton posExtract_positioning hP]
              rfl
            have hfm : firstMoveTag p.text = some (x1, y1, x2, y2) := by
              rw [firstMoveTag]
              rw [findSome_of_filter_singleton moveExtract_positioning hP]
              rfl
            unfold is_top_aligned at hta
            rw [hfp, hfm] at hta
            rw [tagTopHalfOK]
            exact hta
          | an n =>
            have hfp : firstPosTag p.text = none := by
              rw [firstPosTag]
              rw [findSome_of_filter_singleton posExtract_positioning hP]
              rfl
            have hfm : firstMoveTag p.text = none := by
              rw [firstMoveTag]
              rw [findSome_of_filter_singleton moveExtract_positioning hP]
              rfl
            have hfa : firstAnTag p.text = some n := by
              rw [firstAnTag]
              rw [findSome_of_filter_singleton anExtract_positioning hP]
              rfl
            unfold is_top_aligned at hta
            rw [hfp, hfm, hfa] at hta
            rw [Bool.or_eq_true, Bool.and_eq_true] at hta
            rw [decide_eq_true_eq] at hta
            have hn9 : n ≤ 9 := by simpa [goodTag] using hPgood
            rw [tagTopHalfOK, Bool.and_eq_true, decide_eq_true_eq, decide_eq_true_eq]
            rcases hta with hta | hta
            · exact ⟨by omega, hn9⟩
            · rw [decide_eq_true_eq, decide_eq_true_eq] at hta
              exact ⟨hta.1, hn9⟩
          | org x y => exact absurd hPgood (by simp [goodTag])
          | kar n => exact absurd hPpos (by simp [AssTag.isPositioning])
          | other nm => exact absurd hPpos (by simp [AssTag.isPositioning])
        · exact nonpos_top_ok (by rwa [Bool.not_eq_true] at htp)
      rw [hA]
      rw [textTagFree_false_of_mem hPmem hPpos]
      rfl
    · rw [if_pos (by rw [Bool.not_eq_true] at hta; rw [hta]; rfl)]
      rw [eventTopHalf]
      have htx : ({ p with text := stripOrgBlocks (ensure_top_position p.text) } : AssEvent).text
          = ensure_top_position p.text := by
        rw [hstripforce]
      rw [htx, hforce_tags]
      have hmem2 : fixTag true P ∈ allTags (ensure_top_position p.text) := by
        rw [ensure_top_position, allTags_force, List.mem_map]
        exact ⟨P, hPmem, rfl⟩
      rw [textTagFree_false_of_mem hmem2 (by rw [fixTag_isPositioning]; exact hPpos)]
      rfl
  · rw [if_neg hex]
    rw [eventTopHalf]
    have htx : ({ p with
        style := (roleGet sm (pyStrip p.style)).getD (pyStrip p.style),
        text := stripOrgBlocks (ensure_top_position p.text) } : AssEvent).text
        = ensure_top_position p.text := by
      rw [hstripforce]
    rw [htx, hforce_tags]
    cases hlk : roleGet sm (pyStrip p.style) with
    | none => rw [hlk] at hm; exact absurd hm (by simp)
    | some v =>
      have hsty : ({ p with
          style := (roleGet sm (pyStrip p.style)).getD (pyStrip p.style),
          text := stripOrgBlocks (ensure_top_position p.text) } : AssEvent).style = v := by
        rw [hlk]
        rfl
      rw [hsty]
      rcases hv (pyStrip p.style, v) (lookup_mem hlk) with hvv | hvv
      · rw [show v = "Top-Primary" from hvv]
        have h1 : (pyStrip "Top-Primary" == "Top-Primary") = true := by decide
        rw [h1]
        simp
      · rw [show v = "Top-Secondary" from hvv]
        have h1 : (pyStrip "Top-Secondary" == "Top-Secondary") = true := by decide
        rw [h1]
        simp

/-! ## C1: top-half invariant -/

/-- C1 counterexample: an explicitly positioned event with `\pos(500,540)`
is already "not top-aligned" (the frame-half test needs `y < 540`) but the
vertical transform only moves coordinates with `y > 540`, so the output of
`_normalize_top` still carries `y = 540` and fails the top-half test. -/
theorem c1_counterexample :
    (normalize_top [Line.ev c1Ev] cMapTP).isSome = true
      ∧ (parsedEvents ((normalize_top [Line.ev c1Ev] cMapTP).getD [])).all
          eventTopHalf = false :=
  ⟨by decide, by decide⟩

/-- C1 amended.  Top-half invariant, restricted to inputs on which the
transform is exact: the style map sends every event's style to
`Top-Primary`/`Top-Secondary`, and every event text carries at most one
positioning tag, no `\org`, single-digit `\an`, and `\pos`/`\move`
ordinates below 1080 and different from 540.  Then every event in the
output of `_normalize_top` resolves to the top half: each `\pos` has
`y < 540`, each `\move` has both ordinates `< 540`, each `\an` is in
`{4..9}`, and an event with no positioning tag carries a top role style. -/
theorem c1_top_half_amended (evs : List Line) (sm : SMap) (out : List Line)
    (hv : ∀ q ∈ sm, q.2 = "Top-Primary" ∨ q.2 = "Top-Secondary")
    (hm : ∀ e ∈ parsedEvents evs, (roleGet sm (pyStrip e.style)).isSome = true)
    (hg : ∀ e ∈ parsedEvents evs, goodText e.text = true)
    (hout : normalize_top evs sm = some out) :
    ∀ e2 ∈ parsedEvents out, eventTopHalf e2 = true := by
  intro e2 he2
  obtain ⟨p, e1, h1, hs, ht, he⟩ := normalize_top_mem hout e2 he2
  subst he
  refine emitTop_good hv ?_ ?_
  · rw [ht]
    exact hg e1 h1
  · rw [hs]
    exact hm e1 h1

/-- Witness for C1 amended: a `\pos(100,600)` event moved to the top half. -/
theorem c1_top_half_amended_witness :
    normalize_top [Line.ev c1WEv] cMapTP = some c1WOut
      ∧ ∀ e2 ∈ parsedEvents c1WOut, eventTopHalf e2 = true :=
  ⟨by decide,
    c1_top_half_amended [Line.ev c1WEv] cMapTP c1WOut (by decide) (by decide)
      (by decide) (by decide)⟩

/-! ## Counting lemmas for the no-duplicates invariant -/

theorem timeKeysOf_cons_raw (s : String) (l : List OKey) :
    timeKeysOf (OKey.rawLine s :: l) = timeKeysOf l := rfl

theorem timeKeysOf_cons_key (k : Int × Int) (l : List OKey) :
    timeKeysOf (OKey.timeKey k :: l) = k :: timeKeysOf l := rfl

theorem orderKeys_notin_seen :
    ∀ {lines : List Line} {seen : List (Int × Int)} {k : Int × Int},
      k ∈ timeKeysOf (orderKeysAux lines seen) → k ∉ seen := by
  intro lines
  induction lines with
  | nil => intro seen k h; simp [orderKeysAux, timeKeysOf] at h
  | cons x rest ih =>
    intro seen k h
    cases x with
    | raw s => exact ih (by rwa [orderKeysAux, timeKeysOf_cons_raw] at h)
    | bad s => exact ih (by rwa [orderKeysAux, timeKeysOf_cons_raw] at h)
    | ev e =>
      rw [orderKeysAux] at h
      by_cases hc : seen.contains (evKey e) = true
      · rw [if_pos hc] at h
        exact ih h
      · rw [Bool.not_eq_true] at hc
        rw [if_neg (by rw [hc]; simp), timeKeysOf_cons_key, List.mem_cons] at h
        rcases h with h | h
        · subst h
          simpa using hc
        · have := ih h
          intro hk
          exact this (List.mem_cons_of_mem _ hk)

theorem orderKeys_nodup :
    ∀ {lines : List Line} {seen : List (Int × Int)},
      (timeKeysOf (orderKeysAux lines seen)).Nodup := by
  intro lines
  induction lines with
  | nil => intro seen; simp [orderKeysAux, timeKeysOf]
  | cons x rest ih =>
    intro seen
    cases x with
    | raw s => rw [orderKeysAux, timeKeysOf_cons_raw]; exact ih
    | bad s => rw [orderKeysAux, timeKeysOf_cons_raw]; exact ih
    | ev e =>
      rw [orderKeysAux]
      by_cases hc : seen.contains (evKey e) = true
      · rw [if_pos hc]
        exact ih
      · rw [Bool.not_eq_true] at hc
        rw [if_neg (by rw [hc]; simp), timeKeysOf_cons_key, List.nodup_cons]
        refine ⟨?_, ih⟩
        intro hmem
        exact orderKeys_notin_seen hmem (List.mem_cons_self _ _)

theorem emitTop_startMs (sm : SMap) (p : AssEvent) :
    (emitTopEvent sm p).startMs = p.startMs := by
  unfold emitTopEvent
  split
  · split <;> rfl
  · rfl

theorem emitTop_endMs (sm : SMap) (p : AssEvent) :
    (emitTopEvent sm p).endMs = p.endMs := by
  unfold emitTopEvent
  split
  · split <;> rfl
  · rfl

theorem emitTop_kind (sm : SMap) (p : AssEvent) :
    (emitTopEvent sm p).kind = p.kind := by
  unfold emitTopEvent
  split
  · split <;> rfl
  · rfl

theorem emitBucket_evKey {sm : SMap} {lines : List Line} {k : Int × Int}
    {e2 : AssEvent} (h : e2 ∈ emitBucketWith emitTopEvent sm (bucketOf lines k)) :
    evKey e2 = k := by
  obtain ⟨e1, h1, hor⟩ := emitBucket_mem h
  have hk := (bucketOf_mem h1).2
  rcases hor with hor | hor <;> subst hor <;>
    rw [evKey, emitTop_startMs, emitTop_endMs] <;> exact hk

theorem timeKey_mem {ks : List OKey} {k : Int × Int}
    (h : OKey.timeKey k ∈ ks) : k ∈ timeKeysOf ks :=
  List.mem_filterMap.mpr ⟨_, h, rfl⟩

theorem count_timeKey_le_one :
    ∀ {ks : List OKey}, (timeKeysOf ks).Nodup → ∀ k0 : Int × Int,
      ks.count (OKey.timeKey k0) ≤ 1 := by
  intro ks
  induction ks with
  | nil => intro _ k0; simp
  | cons k rest ih =>
    intro hnd k0
    cases k with
    | rawLine s2 =>
      rw [timeKeysOf_cons_raw] at hnd
      rw [List.count_cons]
      have := ih hnd k0
      have hne : (OKey.rawLine s2 == OKey.timeKey k0) = false := by
        simp
      rw [hne]
      simpa using this
    | timeKey kk =>
      rw [timeKeysOf_cons_key, List.nodup_cons] at hnd
      obtain ⟨hnotin, hnd2⟩ := hnd
      rw [List.count_cons]
      by_cases hk : kk = k0
      · subst hk
        have hzero : rest.count (OKey.timeKey kk) = 0 := by
          rw [List.count_eq_zero]
          intro hmem
          exact hnotin (timeKey_mem hmem)
        rw [hzero]
        simp
      · have := ih hnd2 k0
        have hne : (OKey.timeKey kk == OKey.timeKey k0) = false := by
          simpa using hk
        rw [hne]
        simpa using this

theorem countP_flatMap_le_one {α β : Type} [DecidableEq α]
    (ks : List α) (g : α → List β) (pred : β → Bool) (k0 : α)
    (hz : ∀ k ∈ ks, k ≠ k0 → (g k).countP pred = 0)
    (h1 : (g k0).countP pred ≤ 1)
    (hcnt : ks.count k0 ≤ 1) :
    (ks.flatMap g).countP pred ≤ 1 := by
  induction ks with
  | nil => simp
  | cons k rest ih =>
    rw [List.flatMap_cons, List.countP_append]
    by_cases hk : k = k0
    · subst hk
      have hrest : (rest.flatMap g).countP pred = 0 := by
        rw [List.countP_eq_zero]
        intro b hb
        rw [List.mem_flatMap] at hb
        obtain ⟨k2, hk2, hbk⟩ := hb
        have hk2ne : k2 ≠ k := by
          intro he
          subst he
          rw [List.count_cons_self] at hcnt
          have : rest.count k2 = 0 := by omega
          rw [List.count_eq_zero] at this
          exact this hk2
        have := hz k2 (List.mem_cons_of_mem _ hk2) hk2ne
        rw [List.countP_eq_zero] at this
        exact this b hbk
      rw [hrest]
      omega
    · rw [hz k (List.mem_cons_self _ _) hk]
      have : rest.count k0 ≤ 1 := by
        rw [List.count_cons] at hcnt
        omega
      have hih := ih (fun k2 hk2 => hz k2 (List.mem_cons_of_mem _ hk2)) this
      omega

theorem map_id_of_forall {α : Type} {f : α → α} :
    ∀ {l : List α}, (∀ a ∈ l, f a = a) → l.map f = l := by
  intro l
  induction l with
  | nil => intro _; rfl
  | cons a r ih =>
    intro h
    rw [List.map_cons, h a (List.mem_cons_self _ _),
      ih fun x hx => h x (List.mem_cons_of_mem _ hx)]

theorem fixTag_id_of_nonpos {b : Bool} {tg : AssTag}
    (h : tg.isPositioning = false) : fixTag b tg = tg := by
  cases tg <;> simp_all [AssTag.isPositioning, fixTag]

theorem hasExpl_false_of_tagFree {t : AssText} (h : textTagFree t = true) :
    has_explicit_positioning t = false := by
  cases he : has_explicit_positioning t with
  | false => rfl
  | true =>
    obtain ⟨tg, htg, htp⟩ := hasExpl_exists_tag he
    rw [textTagFree_false_of_mem htg htp] at h
    exact absurd h (by simp)

theorem force_id_of_tagFree {b : Bool} {t : AssText} (h : textTagFree t = true) :
    force_vertical_region t b = t := by
  rw [textTagFree, List.all_eq_true] at h
  induction t with
  | nil => rfl
  | cons i rest ih =>
    have hrest : ∀ tg ∈ allTags rest, (!tg.isPositioning) = true := by
      intro tg htg
      refine h tg ?_
      rw [allTags, List.flatMap_cons, List.mem_append]
      exact Or.inr htg
    have htail : force_vertical_region rest b = rest := ih hrest
    cases i with
    | plain s2 =>
      show TextItem.plain s2 :: force_vertical_region rest b = _
      rw [htail]
    | block tgs =>
      show TextItem.block (tgs.map (fixTag b)) :: force_vertical_region rest b = _
      rw [htail]
      have htgs : tgs.map (fixTag b) = tgs := by
        refine map_id_of_forall fun tg htg => fixTag_id_of_nonpos ?_
        have := h tg (tag_mem_allTags (List.mem_cons_self _ rest) htg)
        simpa using this
      rw [htgs]

theorem blockHasOrg_false_of_tagFree {t : AssText} (h : textTagFree t = true) :
    ∀ i ∈ t, blockHasOrg i = false := by
  intro i hi
  rw [textTagFree, List.all_eq_true] at h
  rw [blockHasOrg, List.any_eq_false]
  intro tg htg
  have := h tg (tag_mem_allTags hi htg)
  cases tg <;> simp_all [AssTag.isPositioning]

theorem emitTop_text_of_tagFree {sm : SMap} {p : AssEvent}
    (h : textTagFree p.text = true) : (emitTopEvent sm p).text = p.text := by
  unfold emitTopEvent
  rw [hasExpl_false_of_tagFree h]
  simp only [Bool.false_eq_true, if_false]
  show stripOrgBlocks (ensure_top_position p.text) = p.text
  rw [ensure_top_position, force_id_of_tagFree h,
    stripOrg_id (blockHasOrg_false_of_tagFree h)]

theorem emitTop_style_of_noexpl {sm : SMap} {p : AssEvent}
    (h : has_explicit_positioning p.text = false) :
    (emitTopEvent sm p).style = (roleGet sm (pyStrip p.style)).getD (pyStrip p.style) := by
  unfold emitTopEvent
  rw [h]
  simp only [Bool.false_eq_true, if_false]

theorem roleOf_emitted {sm : SMap} {e2 : AssEvent} {r : String}
    (hr : roleGet sm r = none) (hpr : pyStrip r = r) (hst : e2.style = r) :
    roleOf sm e2 = r := by
  rw [roleOf, hst, hpr, hr]
  rfl

theorem countP_map_demote_tail {sm : SMap} {q0 : AssEvent} {l : List AssEvent}
    (pr : AssEvent → Bool)
    (hpr : ∀ e2 : AssEvent, e2.kind = .comment → pr e2 = false) :
    ((demoteSiblings (q0 :: l)).map (emitTopEvent sm)).countP pr
      = (if pr (emitTopEvent sm q0) then 1 else 0) := by
  rw [demoteSiblings, List.map_cons, List.countP_cons]
  have htail : ((l.map fun q => { q with kind := EvKind.comment }).map
      (emitTopEvent sm)).countP pr = 0 := by
    rw [List.countP_eq_zero]
    intro e2 he2
    rw [List.map_map, List.mem_map] at he2
    obtain ⟨q, _, hq⟩ := he2
    subst hq
    simp only [Function.comp_apply]
    rw [hpr _ (by rw [emitTop_kind])]
    simp
  rw [htail]
  split <;> omega

theorem bucket_side_counts {sm : SMap} (s t : Int) {l : List AssEvent} {role other2 : String}
    (hrole : ∀ e ∈ l, roleGet sm (pyStrip e.style) = some role
        ∧ has_explicit_positioning e.text = false)
    (hR : roleGet sm role = none) (hpr : pyStrip role = role)
    (hne : other2 ≠ role) :
    ((demoteSiblings l).map (emitTopEvent sm)).countP (cntPred sm role s t) ≤ 1
      ∧ ((demoteSiblings l).map (emitTopEvent sm)).countP (cntPred sm other2 s t) = 0 := by
  have hkind : ∀ e2 : AssEvent, e2.kind = .comment → ∀ r2 : String,
      cntPred sm r2 s t e2 = false := by
    intro e2 hk r2
    rw [cntPred, hk]
    simp
  cases l with
  | nil => exact ⟨by simp [demoteSiblings], by simp [demoteSiblings]⟩
  | cons q0 rest =>
    rw [countP_map_demote_tail (cntPred sm role s t) (fun e2 hk => hkind e2 hk role),
      countP_map_demote_tail (cntPred sm other2 s t) (fun e2 hk => hkind e2 hk other2)]
    constructor
    · split <;> omega
    · have hq0 := hrole q0 (List.mem_cons_self _ _)
      have hsty : (emitTopEvent sm q0).style = role := by
        rw [emitTop_style_of_noexpl hq0.2, hq0.1]
        rfl
      have hro : roleOf sm (emitTopEvent sm q0) = role := roleOf_emitted hR hpr hsty
      have : cntPred sm other2 s t (emitTopEvent sm q0) = false := by
        rw [cntPred, hro]
        have : (role == other2) = false := by
          simp only [beq_eq_false_iff_ne, ne_eq]
          exact fun he => hne he.symm
        rw [this]
        simp
      rw [this]
      simp

theorem emitBucket_count_le {sm : SMap} {b : List AssEvent}
    (hTP : roleGet sm "Top-Primary" = none) (hTS : roleGet sm "Top-Secondary" = none)
    (hb : ∀ e ∈ b, has_explicit_positioning e.text = false
        ∧ (roleGet sm (pyStrip e.style) = some "Top-Primary"
           ∨ roleGet sm (pyStrip e.style) = some "Top-Secondary"))
    (s t : Int) :
    (emitBucketWith emitTopEvent sm b).countP (cntPred sm "Top-Primary" s t) ≤ 1
      ∧ (emitBucketWith emitTopEvent sm b).countP (cntPred sm "Top-Secondary" s t) ≤ 1 := by
  have hoth : bucketOthers sm b = [] := by
    rw [bucketOthers, List.filter_eq_nil_iff]
    intro e he
    obtain ⟨hexp, hrole⟩ := hb e he
    rw [hexp]
    rcases hrole with hr | hr <;> rw [hr] <;> decide
  have hprim : ∀ e ∈ bucketPrimaries sm b,
      roleGet sm (pyStrip e.style) = some "Top-Primary"
        ∧ has_explicit_positioning e.text = false := by
    intro e he
    rw [bucketPrimaries, List.mem_filter, Bool.and_eq_true] at he
    obtain ⟨_, h1, h2⟩ := he
    refine ⟨by rwa [beq_iff_eq] at h2, by simpa using h1⟩
  have hsec : ∀ e ∈ bucketSecondaries sm b,
      roleGet sm (pyStrip e.style) = some "Top-Secondary"
        ∧ has_explicit_positioning e.text = false := by
    intro e he
    rw [bucketSecondaries, List.mem_filter, Bool.and_eq_true] at he
    obtain ⟨_, h1, h2⟩ := he
    refine ⟨by rwa [beq_iff_eq] at h2, by simpa using h1⟩
  have hA := bucket_side_counts s t hprim hTP (by decide)
    (by decide : ("Top-Secondary" : String) ≠ "Top-Primary")
  have hB := bucket_side_counts s t hsec hTS (by decide)
    (by decide : ("Top-Primary" : String) ≠ "Top-Secondary")
  rw [emitBucketWith, hoth, List.append_nil, List.map_append, List.countP_append,
    List.countP_append]
  exact ⟨by omega, by omega⟩

theorem bucketPhase_parsed {sm : SMap} {lines out : List Line}
    (h : bucketPhaseWith emitTopEvent sm lines = some out) :
    parsedEvents out = (orderKeysAux lines []).flatMap
      (fun kk => match kk with
        | OKey.rawLine _ => []
        | OKey.timeKey k => emitBucketWith emitTopEvent sm (bucketOf lines k)) := by
  unfold bucketPhaseWith at h
  split at h
  · exact absurd h (by simp)
  · rw [Option.some_inj] at h
    subst h
    rw [parsedEvents, List.filterMap_flatMap]
    congr 1
    funext kk
    cases kk with
    | rawLine s2 => rfl
    | timeKey k => exact parsedEvents_map_ev _

/-- C2 counterexample: two same-interval `Dialogue` events whose style is
mapped to `Top-Primary` but which carry explicit positioning are both kept
as `Dialogue` by `_normalize_top` — the dedup only applies to cues without
explicit positioning. -/
theorem c2_counterexample :
    (normalize_top [Line.ev c2EvA, Line.ev c2EvB] cMapTP).isSome = true
      ∧ (parsedEvents ((normalize_top [Line.ev c2EvA, Line.ev c2EvB] cMapTP).getD [])).countP
          (cntPred cMapTP "Top-Primary" 0 1000) = 2 :=
  ⟨by decide, by decide⟩

/-- C2 amended.  No same-role concurrent duplicates, restricted to events
without positioning tags (hence without explicit positioning), with every
style mapped by the style map, the map's values among the two top roles,
and the literal role names themselves unmapped: among the output events of
`_normalize_top` sharing one exact `(start, end)` interval, at most one
event of mapped role `Top-Primary` and at most one of mapped role
`Top-Secondary` has kind `Dialogue`; and every output event keeps the text
of some input event untouched. -/
theorem c2_no_duplicate_roles (evs : List Line) (sm : SMap) (out : List Line)
    (hnp : ∀ e ∈ parsedEvents evs, textTagFree e.text = true)
    (hm : ∀ e ∈ parsedEvents evs, (roleGet sm (pyStrip e.style)).isSome = true)
    (hv : ∀ q ∈ sm, q.2 = "Top-Primary" ∨ q.2 = "Top-Secondary")
    (hTP : roleGet sm "Top-Primary" = none)
    (hTS : roleGet sm "Top-Secondary" = none)
    (hout : normalize_top evs sm = some out) (s t : Int) :
    (parsedEvents out).countP (cntPred sm "Top-Primary" s t) ≤ 1
      ∧ (parsedEvents out).countP (cntPred sm "Top-Secondary" s t) ≤ 1
      ∧ ∀ e2 ∈ parsedEvents out, ∃ e1 ∈ parsedEvents evs, e2.text = e1.text := by
  simp only [normalize_top, Option.bind_eq_bind, Option.bind_eq_some] at hout
  obtain ⟨ev2, hsplit, hbp⟩ := hout
  have hprops : ∀ e ∈ parsedEvents ev2, textTagFree e.text = true
      ∧ (roleGet sm (pyStrip e.style) = some "Top-Primary"
        ∨ roleGet sm (pyStrip e.style) = some "Top-Secondary") := by
    intro e he
    obtain ⟨e1, h1, _, hsy, htx⟩ := normalizeSplits_mem hsplit e he
    constructor
    · rw [htx]
      exact hnp e1 h1
    · rw [hsy]
      have hm1 := hm e1 h1
      cases hlk : roleGet sm (pyStrip e1.style) with
      | none => rw [hlk] at hm1; exact absurd hm1 (by simp)
      | some v =>
        rcases hv (pyStrip e1.style, v) (lookup_mem hlk) with hvv | hvv
        · left
          rw [show v = "Top-Primary" from hvv]
        · right
          rw [show v = "Top-Secondary" from hvv]
  have hbmem : ∀ k : Int × Int, ∀ e ∈ bucketOf ev2 k,
      has_explicit_positioning e.text = false
        ∧ (roleGet sm (pyStrip e.style) = some "Top-Primary"
           ∨ roleGet sm (pyStrip e.style) = some "Top-Secondary") := by
    intro k e he
    have hp := hprops e (bucketOf_mem he).1
    exact ⟨hasExpl_false_of_tagFree hp.1, hp.2⟩
  have hparsed := bucketPhase_parsed hbp
  have hcount : ∀ role : String,
      (parsedEvents out).countP (cntPred sm role s t) ≤ 1
        ∨ ((emitBucketWith emitTopEvent sm (bucketOf ev2 (s, t))).countP
            (cntPred sm role s t) ≤ 1 →
          (parsedEvents out).countP (cntPred sm role s t) ≤ 1) := by
    intro role
    right
    intro h1
    rw [hparsed]
    refine countP_flatMap_le_one _ _ _ (OKey.timeKey (s, t)) ?_ h1 ?_
    · intro k _ hk
      cases k with
      | rawLine s2 => rfl
      | timeKey kk =>
        have hkk : kk ≠ (s, t) := fun he => hk (by rw [he])
        rw [List.countP_eq_zero]
        intro e2 he2
        have hkey := emitBucket_evKey he2
        intro hpred
        simp only [cntPred, Bool.and_eq_true, decide_eq_true_eq] at hpred
        obtain ⟨⟨⟨hs1, ht1⟩, _⟩, _⟩ := hpred
        refine hkk ?_
        rw [← hkey, evKey, hs1, ht1]
    · exact count_timeKey_le_one orderKeys_nodup (s, t)
  have hTPc := emitBucket_count_le hTP hTS (hbmem (s, t)) s t
  refine ⟨?_, ?_, ?_⟩
  · rcases hcount "Top-Primary" with h | h
    · exact h
    · exact h hTPc.1
  · rcases hcount "Top-Secondary" with h | h
    · exact h
    · exact h hTPc.2
  · intro e2 he2
    obtain ⟨q, hq, hor⟩ := bucketPhase_mem hbp e2 he2
    obtain ⟨e1, h1, _, _, htx⟩ := normalizeSplits_mem hsplit q hq
    have htf : textTagFree q.text = true := (hprops q hq).1
    refine ⟨e1, h1, ?_⟩
    rcases hor with hor | hor <;> subst hor
    · rw [emitTop_text_of_tagFree htf, htx]
    · rw [emitTop_text_of_tagFree (p := { q with kind := EvKind.comment }) htf]
      exact htx

/-- Witness for C2 amended at two plain same-interval `Default` dialogues. -/
theorem c2_no_duplicate_roles_witness :
    normalize_top [Line.ev c2WEvA, Line.ev c2WEvB] cMapTP = some c2WOut
      ∧ (parsedEvents c2WOut).countP (cntPred cMapTP "Top-Primary" 0 1000) ≤ 1
      ∧ (parsedEvents c2WOut).countP (cntPred cMapTP "Top-Secondary" 0 1000) ≤ 1
      ∧ ∀ e2 ∈ parsedEvents c2WOut,
          ∃ e1 ∈ parsedEvents [Line.ev c2WEvA, Line.ev c2WEvB], e2.text = e1.text := by
  have h := c2_no_duplicate_roles [Line.ev c2WEvA, Line.ev c2WEvB] cMapTP c2WOut
    (by decide) (by decide) (by decide) (by decide) (by decide) (by decide) 0 1000
  exact ⟨by decide, h.1, h.2.1, h.2.2⟩

/-! ## Lemmas for the comment round-trip -/

theorem mem_parsedEvents {lines : List Line} {e : AssEvent} :
    e ∈ parsedEvents lines ↔ Line.ev e ∈ lines := by
  rw [parsedEvents, List.mem_filterMap]
  constructor
  · rintro ⟨l, hl, hm⟩
    cases l with
    | ev e1 =>
      rw [Option.some_inj] at hm
      subst hm
      exact hl
    | raw s2 => exact absurd hm (by simp)
    | bad s2 => exact absurd hm (by simp)
  · intro h
    exact ⟨_, h, rfl⟩

theorem timeKey_mem_rev {ks : List OKey} {k : Int × Int}
    (h : k ∈ timeKeysOf ks) : OKey.timeKey k ∈ ks := by
  rw [timeKeysOf, List.mem_filterMap] at h
  obtain ⟨a, ha, hm⟩ := h
  cases a with
  | rawLine s2 => exact absurd hm (by simp)
  | timeKey kk =>
    rw [Option.some_inj] at hm
    subst hm
    exact ha

theorem orderKeys_key_mem :
    ∀ {lines : List Line} {seen : List (Int × Int)} {e : AssEvent},
      Line.ev e ∈ lines →
        evKey e ∈ timeKeysOf (orderKeysAux lines seen) ∨ evKey e ∈ seen := by
  intro lines
  induction lines with
  | nil => intro seen e h; simp at h
  | cons x rest ih =>
    intro seen e h
    rw [List.mem_cons] at h
    cases x with
    | raw s2 =>
      rw [orderKeysAux, timeKeysOf_cons_raw]
      rcases h with h | h
      · exact absurd h (by simp)
      · exact ih h
    | bad s2 =>
      rw [orderKeysAux, timeKeysOf_cons_raw]
      rcases h with h | h
      · exact absurd h (by simp)
      · exact ih h
    | ev e1 =>
      rw [orderKeysAux]
      by_cases hc : seen.contains (evKey e1) = true
      · rw [if_pos hc]
        rcases h with h | h
        · rw [Line.ev.injEq] at h
          subst h
          exact Or.inr (by simpa using hc)
        · exact ih h
      · rw [Bool.not_eq_true] at hc
        rw [if_neg (by rw [hc]; simp), timeKeysOf_cons_key]
        rcases h with h | h
        · rw [Line.ev.injEq] at h
          subst h
          exact Or.inl (List.mem_cons_self _ _)
        · rcases @ih (evKey e1 :: seen) e h with hm | hm
          · exact Or.inl (List.mem_cons_of_mem _ hm)
          · rw [List.mem_cons] at hm
            rcases hm with hm | hm
            · exact Or.inl (by rw [hm]; exact List.mem_cons_self _ _)
            · exact Or.inr hm

theorem normalize_top_untouched {evs out : List Line} {sm : SMap} {e : AssEvent}
    (h : normalize_top evs sm = some out) (he : e ∈ parsedEvents evs)
    (hlk : roleGet sm (pyStrip e.style) = none)
    (htf : textTagFree e.text = true) :
    emitTopEvent sm e ∈ parsedEvents out := by
  simp only [normalize_top, Option.bind_eq_bind, Option.bind_eq_some] at h
  obtain ⟨ev2, hsplit, hbp⟩ := h
  obtain ⟨pPts, ev1, sPts, _, hs1, _, hs2⟩ := normalizeSplits_cases hsplit
  have hpredS : (fun st => roleGet sm st == some "Top-Secondary") (pyStrip e.style)
      = false := by
    show (roleGet sm (pyStrip e.style) == some "Top-Secondary") = false
    rw [hlk]
    rfl
  have hpredP : (fun st => roleGet sm st == some "Top-Primary") (pyStrip e.style)
      = false := by
    show (roleGet sm (pyStrip e.style) == some "Top-Primary") = false
    rw [hlk]
    rfl
  have he1 : e ∈ parsedEvents ev1 := split_events_untouched hs1 he hpredS
  have he2 : e ∈ parsedEvents ev2 := split_events_untouched hs2 he1 hpredP
  rw [bucketPhase_parsed hbp, List.mem_flatMap]
  refine ⟨OKey.timeKey (evKey e), ?_, ?_⟩
  · refine timeKey_mem_rev ?_
    rcases orderKeys_key_mem (mem_parsedEvents.mp he2) with hm | hm
    · exact hm
    · simp at hm
  · show emitTopEvent sm e ∈ emitBucketWith emitTopEvent sm (bucketOf ev2 (evKey e))
    rw [emitBucketWith, List.mem_map]
    refine ⟨e, ?_, rfl⟩
    rw [List.mem_append]
    refine Or.inr ?_
    rw [bucketOthers, List.mem_filter]
    constructor
    · rw [bucketOf, List.mem_filter]
      exact ⟨he2, by simp⟩
    · rw [hasExpl_false_of_tagFree htf, hlk]
      rfl

theorem blockHasPositioning_false_of_tagFree {t : AssText}
    (h : textTagFree t = true) : ∀ i ∈ t, blockHasPositioning i = false := by
  intro i hi
  rw [textTagFree, List.all_eq_true] at h
  rw [blockHasPositioning, List.any_eq_false]
  intro tg htg
  have := h tg (tag_mem_allTags hi htg)
  simpa using this

theorem stripPos_id_of_tagFree {t : AssText} (h : textTagFree t = true) :
    stripPositioningBlocks t = t := by
  rw [stripPositioningBlocks, List.filter_eq_self]
  intro i hi
  rw [blockHasPositioning_false_of_tagFree h i hi]
  rfl

theorem sanitizeEvent_kind (ivs : List (Int × Int)) (e : AssEvent) :
    (sanitizeEvent ivs e).kind = e.kind := by
  simp only [sanitizeEvent]
  split
  · split <;> rfl
  · split
    · split <;> rfl
    · split <;> rfl

theorem sanitizeEvent_startMs (ivs : List (Int × Int)) (e : AssEvent) :
    (sanitizeEvent ivs e).startMs = e.startMs := by
  simp only [sanitizeEvent]
  split
  · split <;> rfl
  · split
    · split <;> rfl
    · split <;> rfl

theorem sanitizeEvent_endMs (ivs : List (Int × Int)) (e : AssEvent) :
    (sanitizeEvent ivs e).endMs = e.endMs := by
  simp only [sanitizeEvent]
  split
  · split <;> rfl
  · split
    · split <;> rfl
    · split <;> rfl

theorem sanitizeEvent_text_of_tagFree (ivs : List (Int × Int)) {e : AssEvent}
    (h : textTagFree e.text = true) : (sanitizeEvent ivs e).text = e.text := by
  have hp : has_explicit_positioning e.text = false := hasExpl_false_of_tagFree h
  simp only [sanitizeEvent, hp, Bool.false_and, if_false, if_neg (by simp : ¬ (false = true))]
  split
  · rfl
  · split
    · show stripPositioningBlocks e.text = e.text
      exact stripPos_id_of_tagFree h
    · show stripPositioningBlocks e.text = e.text
      exact stripPos_id_of_tagFree h

theorem parsedEvents_map_sanitize (ivs : List (Int × Int)) :
    ∀ l : List Line,
      parsedEvents (l.map fun x => match x with
        | Line.ev e => Line.ev (sanitizeEvent ivs e)
        | x => x)
        = (parsedEvents l).map (sanitizeEvent ivs) := by
  intro l
  induction l with
  | nil => rfl
  | cons x rest ih =>
    cases x with
    | ev e =>
      rw [List.map_cons]
      rw [show (match Line.ev e with
        | Line.ev e => Line.ev (sanitizeEvent ivs e)
        | x => x) = Line.ev (sanitizeEvent ivs e) from rfl]
      rw [parsedEvents_cons_ev, parsedEvents_cons_ev, List.map_cons, ih]
    | raw s2 =>
      rw [List.map_cons]
      rw [show (match Line.raw s2 with
        | Line.ev e => Line.ev (sanitizeEvent ivs e)
        | x => x) = Line.raw s2 from rfl]
      rw [parsedEvents_cons_raw, parsedEvents_cons_raw, ih]
    | bad s2 =>
      rw [List.map_cons]
      rw [show (match Line.bad s2 with
        | Line.ev e => Line.ev (sanitizeEvent ivs e)
        | x => x) = Line.bad s2 from rfl]
      exact ih

theorem sanitize_parsed {evs2 : List Line} {styles2 : List (String × String)}
    {ivs : List (Int × Int)} {out : List Line} {kept : List String}
    (h : sanitize_and_map_bottom evs2 styles2 ivs = some (out, kept)) :
    parsedEvents out = (parsedEvents evs2).map (sanitizeEvent ivs) := by
  unfold sanitize_and_map_bottom at h
  split at h
  · exact absurd h (by simp)
  · rw [Option.some_inj, Prod.mk.injEq] at h
    obtain ⟨h1, _⟩ := h
    subst h1
    exact parsedEvents_map_sanitize ivs evs2

/-- C6 counterexample: a top-track `Comment` event styled `Default` with a
bottom-half `\pos` tag has its text rewritten by the merge (its position is
forced to the top half), so it does not round-trip unchanged. -/
theorem c6_counterexample :
    merge_subs_for_batch [("Default", "Style: Default,...")] [Line.ev c6Ev] [] []
        = some [Line.ev { c6Ev with text := [.block [.pos 100 60], .plain "n"] }]
      ∧ c6Ev.kind = EvKind.comment
      ∧ ¬ ((([.block [.pos 100 60], .plain "n"] : AssText) = c6Ev.text)) :=
  ⟨by decide, by decide, by decide⟩

/-- C6 amended.  Comment round-trip, restricted to comments the pipeline
does not touch: a `Comment` event whose text carries no positioning tag
round-trips through the merge with identical timing and text provided, for
the top track, its style is not mapped by the computed style map (mapped
comments can be split, forced to the top half, or used in deduplication);
bottom-track comments need no style restriction. -/
theorem c6_comment_round_trip (styles1 : List (String × String)) (evs1 : List Line)
    (styles2 : List (String × String)) (evs2 : List Line) (sm : SMap) (out : List Line)
    (hsm : create_top_style_map styles1 evs1 = some sm)
    (hout : merge_subs_for_batch styles1 evs1 styles2 evs2 = some out) :
    (∀ e ∈ parsedEvents evs1, e.kind = .comment →
      roleGet sm (pyStrip e.style) = none → textTagFree e.text = true →
      ∃ e2 ∈ parsedEvents out, e2.kind = .comment ∧ e2.startMs = e.startMs
        ∧ e2.endMs = e.endMs ∧ e2.text = e.text)
    ∧ (∀ e ∈ parsedEvents evs2, e.kind = .comment → textTagFree e.text = true →
      ∃ e2 ∈ parsedEvents out, e2.kind = .comment ∧ e2.startMs = e.startMs
        ∧ e2.endMs = e.endMs ∧ e2.text = e.text) := by
  simp only [merge_subs_for_batch, Option.bind_eq_bind, Option.bind_eq_some] at hout
  obtain ⟨sm2, hsm2, top, htop, ivs, hivs, bot, hbot, heq⟩ := hout
  rw [hsm] at hsm2
  rw [Option.some_inj] at hsm2
  subst hsm2
  rw [Option.pure_def, Option.some_inj] at heq
  subst heq
  constructor
  · intro e he hk hlk htf
    have hmem := normalize_top_untouched htop he hlk htf
    refine ⟨emitTopEvent sm e, ?_, ?_, ?_, ?_, ?_⟩
    · rw [parsedEvents_append, List.mem_append]
      exact Or.inl hmem
    · rw [emitTop_kind]
      exact hk
    · exact emitTop_startMs sm e
    · exact emitTop_endMs sm e
    · exact emitTop_text_of_tagFree htf
  · intro e he hk htf
    obtain ⟨out2, kept⟩ := bot
    refine ⟨sanitizeEvent ivs e, ?_, ?_, ?_, ?_, ?_⟩
    · rw [parsedEvents_append, List.mem_append]
      refine Or.inr ?_
      rw [sanitize_parsed hbot, List.mem_map]
      exact ⟨e, he, rfl⟩
    · rw [sanitizeEvent_kind]
      exact hk
    · exact sanitizeEvent_startMs ivs e
    · exact sanitizeEvent_endMs ivs e
    · exact sanitizeEvent_text_of_tagFree ivs htf

/-- Witness for C6 amended: an unmapped top comment and a bottom comment. -/
theorem c6_comment_round_trip_witness :
    (∀ e ∈ parsedEvents [Line.ev c6WEv], e.kind = .comment →
      roleGet cMapTP (pyStrip e.style) = none → textTagFree e.text = true →
      ∃ e2 ∈ parsedEvents c6WOut, e2.kind = .comment ∧ e2.startMs = e.startMs
        ∧ e2.endMs = e.endMs ∧ e2.text = e.text)
    ∧ (∀ e ∈ parsedEvents ([] : List Line), e.kind = .comment → textTagFree e.text = true →
      ∃ e2 ∈ parsedEvents c6WOut, e2.kind = .comment ∧ e2.startMs = e.startMs
        ∧ e2.endMs = e.endMs ∧ e2.text = e.text) :=
  c6_comment_round_trip [("Default", "Style: Default,...")] [Line.ev c6WEv] [] []
    cMapTP c6WOut (by decide) (by decide)

/-! ## Lemmas comparing the two engine copies -/

theorem emitTop_eq_dual {sm : SMap} {p : AssEvent}
    (h : has_explicit_positioning p.text = false) :
    emitTopEvent sm p = emitTopEventDual sm p := by
  simp only [emitTopEvent, emitTopEventDual, h, Bool.false_eq_true, if_false]

theorem sanitizeEvent_eq_dual {ivs : List (Int × Int)} {e : AssEvent}
    (h : has_explicit_positioning e.text = false) :
    sanitizeEvent ivs e = sanitizeEventDual ivs e := by
  simp only [sanitizeEvent, sanitizeEventDual, h, Bool.false_and, Bool.false_eq_true,
    if_false]

theorem emitBucket_text_src {sm : SMap} {b : List AssEvent} {q : AssEvent}
    (h : q ∈ demoteSiblings (bucketPrimaries sm b)
        ++ demoteSiblings (bucketSecondaries sm b) ++ bucketOthers sm b) :
    ∃ e1 ∈ b, q.text = e1.text := by
  rw [List.mem_append, List.mem_append] at h
  rcases h with (h | h) | h
  · obtain ⟨e1, he1, hq⟩ := demote_mem h
    rw [bucketPrimaries, List.mem_filter] at he1
    rcases hq with hq | hq <;> exact ⟨e1, he1.1, by rw [hq]⟩
  · obtain ⟨e1, he1, hq⟩ := demote_mem h
    rw [bucketSecondaries, List.mem_filter] at he1
    rcases hq with hq | hq <;> exact ⟨e1, he1.1, by rw [hq]⟩
  · rw [bucketOthers, List.mem_filter] at h
    exact ⟨q, h.1, rfl⟩

theorem emitBucket_eq_dual {sm : SMap} {b : List AssEvent}
    (h : ∀ e ∈ b, has_explicit_positioning e.text = false) :
    emitBucketWith emitTopEvent sm b = emitBucketWith emitTopEventDual sm b := by
  rw [emitBucketWith, emitBucketWith]
  refine List.map_congr_left ?_
  intro q hq
  obtain ⟨e1, he1, ht⟩ := emitBucket_text_src hq
  refine emitTop_eq_dual ?_
  rw [ht]
  exact h e1 he1

theorem bucketPhase_eq_dual {sm : SMap} {lines : List Line}
    (h : ∀ e ∈ parsedEvents lines, has_explicit_positioning e.text = false) :
    bucketPhaseWith emitTopEvent sm lines = bucketPhaseWith emitTopEventDual sm lines := by
  unfold bucketPhaseWith
  split
  · rfl
  · congr 2
    funext kk
    cases kk with
    | rawLine s2 => rfl
    | timeKey k =>
      show (emitBucketWith emitTopEvent sm (bucketOf lines k)).map Line.ev
          = (emitBucketWith emitTopEventDual sm (bucketOf lines k)).map Line.ev
      rw [emitBucket_eq_dual]
      intro e he
      exact h e (bucketOf_mem he).1

theorem normalize_top_eq_dual {evs : List Line} {sm : SMap}
    (h : ∀ e ∈ parsedEvents evs, textTagFree e.text = true) :
    normalize_top evs sm = normalize_top_dual evs sm := by
  unfold normalize_top normalize_top_dual
  cases hs : normalizeSplits evs sm with
  | none => rfl
  | some ev2 =>
    show bucketPhaseWith emitTopEvent sm ev2 = bucketPhaseWith emitTopEventDual sm ev2
    refine bucketPhase_eq_dual ?_
    intro e2 he2
    obtain ⟨e1, he1, _, _, ht⟩ := normalizeSplits_mem hs e2 he2
    refine hasExpl_false_of_tagFree ?_
    rw [ht]
    exact h e1 he1

theorem englishIntervals_eq_dual :
    ∀ {lines : List Line},
      (∀ e ∈ parsedEvents lines, has_explicit_positioning e.text = false) →
        englishIntervals lines = englishIntervalsDual lines := by
  intro lines
  induction lines with
  | nil => intro _; rfl
  | cons x rest ih =>
    intro h
    cases x with
    | bad s2 => rfl
    | raw s2 =>
      refine ih ?_
      intro e he
      refine h e ?_
      rw [parsedEvents_cons_raw]
      exact he
    | ev e =>
      have hrest : englishIntervals rest = englishIntervalsDual rest := by
        refine ih ?_
        intro e2 he2
        refine h e2 ?_
        rw [parsedEvents_cons_ev]
        exact List.mem_cons_of_mem _ he2
      have he : has_explicit_positioning e.text = false := by
        refine h e ?_
        rw [parsedEvents_cons_ev]
        exact List.mem_cons_self _ _
      simp only [englishIntervals, englishIntervalsDual, hrest, he, Bool.false_and,
        Bool.or_false]

theorem sanitize_eq_dual {evs2 : List Line} {styles2 : List (String × String)}
    {ivs : List (Int × Int)}
    (h : ∀ e ∈ parsedEvents evs2, textTagFree e.text = true) :
    sanitize_and_map_bottom evs2 styles2 ivs
      = sanitize_and_map_bottom_dual evs2 styles2 ivs := by
  by_cases hb : hasBadLine evs2 = true
  · rw [sanitize_and_map_bottom, sanitize_and_map_bottom_dual, if_pos hb, if_pos hb]
  · rw [sanitize_and_map_bottom, sanitize_and_map_bottom_dual, if_neg hb, if_neg hb]
    congr 1
    refine Prod.ext ?_ rfl
    show evs2.map _ = evs2.map _
    refine List.map_congr_left ?_
    intro l hl
    cases l with
    | raw s2 => rfl
    | bad s2 => rfl
    | ev e =>
      show Line.ev (sanitizeEvent ivs e) = Line.ev (sanitizeEventDual ivs e)
      rw [sanitizeEvent_eq_dual]
      exact hasExpl_false_of_tagFree (h e (mem_parsedEvents.mpr hl))

theorem merge_none_of_sm {s1 : List (String × String)} {e1 : List Line}
    {s2 : List (String × String)} {e2 : List Line}
    (h : create_top_style_map s1 e1 = none) :
    merge_subs_for_batch s1 e1 s2 e2 = none := by
  unfold merge_subs_for_batch
  rw [h]
  rfl

theorem merge_dual_none_of_sm {s1 : List (String × String)} {e1 : List Line}
    {s2 : List (String × String)} {e2 : List Line}
    (h : create_top_style_map s1 e1 = none) :
    merge_subs_for_batch_dual s1 e1 s2 e2 = none := by
  unfold merge_subs_for_batch_dual
  rw [h]
  rfl

theorem merge_none_of_top {s1 : List (String × String)} {e1 : List Line}
    {s2 : List (String × String)} {e2 : List Line} {sm : SMap}
    (hsm : create_top_style_map s1 e1 = some sm)
    (h : normalize_top e1 sm = none) : merge_subs_for_batch s1 e1 s2 e2 = none := by
  unfold merge_subs_for_batch
  rw [hsm]
  show (normalize_top e1 sm).bind _ = none
  rw [h]
  rfl

theorem merge_dual_none_of_top {s1 : List (String × String)} {e1 : List Line}
    {s2 : List (String × String)} {e2 : List Line} {sm : SMap}
    (hsm : create_top_style_map s1 e1 = some sm)
    (h : normalize_top_dual e1 sm = none) :
    merge_subs_for_batch_dual s1 e1 s2 e2 = none := by
  unfold merge_subs_for_batch_dual
  rw [hsm]
  show (normalize_top_dual e1 sm).bind _ = none
  rw [h]
  rfl

theorem merge_none_of_ivs {s1 : List (String × String)} {e1 : List Line}
    {s2 : List (String × String)} {e2 : List Line} {sm : SMap} {top : List Line}
    (hsm : create_top_style_map s1 e1 = some sm)
    (htop : normalize_top e1 sm = some top)
    (h : englishIntervals top = none) : merge_subs_for_batch s1 e1 s2 e2 = none := by
  unfold merge_subs_for_batch
  rw [hsm]
  show (normalize_top e1 sm).bind _ = none
  rw [htop]
  show (englishIntervals top).bind _ = none
  rw [h]
  rfl

theorem merge_dual_none_of_ivs {s1 : List (String × String)} {e1 : List Line}
    {s2 : List (String × String)} {e2 : List Line} {sm : SMap} {top : List Line}
    (hsm : create_top_style_map s1 e1 = some sm)
    (htop : normalize_top_dual e1 sm = some top)
    (h : englishIntervalsDual top = none) :
    merge_subs_for_batch_dual s1 e1 s2 e2 = none := by
  unfold merge_subs_for_batch_dual
  rw [hsm]
  show (normalize_top_dual e1 sm).bind _ = none
  rw [htop]
  show (englishIntervalsDual top).bind _ = none
  rw [h]
  rfl

theorem merge_none_of_bot {s1 : List (String × String)} {e1 : List Line}
    {s2 : List (String × String)} {e2 : List Line} {sm : SMap} {top : List Line}
    {ivs : List (Int × Int)}
    (hsm : create_top_style_map s1 e1 = some sm)
    (htop : normalize_top e1 sm = some top)
    (hivs : englishIntervals top = some ivs)
    (h : sanitize_and_map_bottom e2 s2 ivs = none) :
    merge_subs_for_batch s1 e1 s2 e2 = none := by
  unfold merge_subs_for_batch
  rw [hsm]
  show (normalize_top e1 sm).bind _ = none
  rw [htop]
  show (englishIntervals top).bind _ = none
  rw [hivs]
  show (sanitize_and_map_bottom e2 s2 ivs).bind _ = none
  rw [h]
  rfl

theorem merge_dual_none_of_bot {s1 : List (String × String)} {e1 : List Line}
    {s2 : List (String × String)} {e2 : List Line} {sm : SMap} {top : List Line}
    {ivs : List (Int × Int)}
    (hsm : create_top_style_map s1 e1 = some sm)
    (htop : normalize_top_dual e1 sm = some top)
    (hivs : englishIntervalsDual top = some ivs)
    (h : sanitize_and_map_bottom_dual e2 s2 ivs = none) :
    merge_subs_for_batch_dual s1 e1 s2 e2 = none := by
  unfold merge_subs_for_batch_dual
  rw [hsm]
  show (normalize_top_dual e1 sm).bind _ = none
  rw [htop]
  show (englishIntervalsDual top).bind _ = none
  rw [hivs]
  show (sanitize_and_map_bottom_dual e2 s2 ivs).bind _ = none
  rw [h]
  rfl

theorem merge_eq_some {s1 : List (String × String)} {e1 : List Line}
    {s2 : List (String × String)} {e2 : List Line} {sm : SMap} {top : List Line}
    {ivs : List (Int × Int)} {bot : List Line × List String}
    (hsm : create_top_style_map s1 e1 = some sm)
    (htop : normalize_top e1 sm = some top)
    (hivs : englishIntervals top = some ivs)
    (hbot : sanitize_and_map_bottom e2 s2 ivs = some bot) :
    merge_subs_for_batch s1 e1 s2 e2 = some (top ++ bot.1) := by
  simp only [merge_subs_for_batch, Option.bind_eq_bind, Option.bind_eq_some]
  exact ⟨sm, hsm, top, htop, ivs, hivs, bot, hbot, rfl⟩

theorem merge_dual_eq_some {s1 : List (String × String)} {e1 : List Line}
    {s2 : List (String × String)} {e2 : List Line} {sm : SMap} {top : List Line}
    {ivs : List (Int × Int)} {bot : List Line × List String}
    (hsm : create_top_style_map s1 e1 = some sm)
    (htop : normalize_top_dual e1 sm = some top)
    (hivs : englishIntervalsDual top = some ivs)
    (hbot : sanitize_and_map_bottom_dual e2 s2 ivs = some bot) :
    merge_subs_for_batch_dual s1 e1 s2 e2 = some (top ++ bot.1) := by
  simp only [merge_subs_for_batch_dual, Option.bind_eq_bind, Option.bind_eq_some]
  exact ⟨sm, hsm, top, htop, ivs, hivs, bot, hbot, rfl⟩

/-- C10 counterexample: with an empty top track, a passthrough bottom cue
positioned at `\pos(500,100)` is left untouched by `sub-merger.py` (no
collision) but unconditionally forced to `\pos(500,640)` by
`dual-subtitle-burner.py`, so the two engine copies disagree. -/
theorem c10_counterexample :
    merge_subs_for_batch [] [] [] [Line.ev c10Ev]
      ≠ merge_subs_for_batch_dual [] [] [] [Line.ev c10Ev] := by decide

/-- C10 amended.  The two engine copies agree on every pair of parsed
scripts whose event texts are free of positioning override tags: the copies
differ only in how they treat explicitly positioned cues (top-alignment
check before forcing, interval recording, collision gating), so on
tag-free inputs every stage coincides and the merged outputs are equal. -/
theorem c10_tagfree_equivalence (styles1 : List (String × String)) (evs1 : List Line)
    (styles2 : List (String × String)) (evs2 : List Line)
    (h1 : ∀ e ∈ parsedEvents evs1, textTagFree e.text = true)
    (h2 : ∀ e ∈ parsedEvents evs2, textTagFree e.text = true) :
    merge_subs_for_batch styles1 evs1 styles2 evs2
      = merge_subs_for_batch_dual styles1 evs1 styles2 evs2 := by
  cases hsm : create_top_style_map styles1 evs1 with
  | none => rw [merge_none_of_sm hsm, merge_dual_none_of_sm hsm]
  | some sm =>
    cases htop : normalize_top evs1 sm with
    | none =>
      have htopd : normalize_top_dual evs1 sm = none := by
        rw [← normalize_top_eq_dual h1]
        exact htop
      rw [merge_none_of_top hsm htop, merge_dual_none_of_top hsm htopd]
    | some top =>
      have htopd : normalize_top_dual evs1 sm = some top := by
        rw [← normalize_top_eq_dual h1]
        exact htop
      have htf : ∀ e ∈ parsedEvents top, has_explicit_positioning e.text = false := by
        intro e2 he2
        obtain ⟨p, eo, heo, _, hpt, he2eq⟩ := normalize_top_mem htop e2 he2
        have htf1 : textTagFree p.text = true := by
          rw [hpt]
          exact h1 eo heo
        rw [he2eq, emitTop_text_of_tagFree htf1]
        exact hasExpl_false_of_tagFree htf1
      cases hivs : englishIntervals top with
      | none =>
        have hivd : englishIntervalsDual top = none := by
          rw [← englishIntervals_eq_dual htf]
          exact hivs
        rw [merge_none_of_ivs hsm htop hivs, merge_dual_none_of_ivs hsm htopd hivd]
      | some ivs =>
        have hivd : englishIntervalsDual top = some ivs := by
          rw [← englishIntervals_eq_dual htf]
          exact hivs
        cases hbot : sanitize_and_map_bottom evs2 styles2 ivs with
        | none =>
          have hbotd : sanitize_and_map_bottom_dual evs2 styles2 ivs = none := by
            rw [← sanitize_eq_dual h2]
            exact hbot
          rw [merge_none_of_bot hsm htop hivs hbot,
            merge_dual_none_of_bot hsm htopd hivd hbotd]
        | some bot =>
          have hbotd : sanitize_and_map_bottom_dual evs2 styles2 ivs = some bot := by
            rw [← sanitize_eq_dual h2]
            exact hbot
          rw [merge_eq_some hsm htop hivs hbot,
            merge_dual_eq_some hsm htopd hivd hbotd]

/-- Witness for C10 amended: a tag-free top event against a tag-free
bottom event. -/
theorem c10_tagfree_equivalence_witness :
    merge_subs_for_batch [("Default", "Style: Default,...")] [Line.ev c10WTop]
        [("Sub-CN", "Style: Sub-CN,...")] [Line.ev c10WBot]
      = merge_subs_for_batch_dual [("Default", "Style: Default,...")] [Line.ev c10WTop]
        [("Sub-CN", "Style: Sub-CN,...")] [Line.ev c10WBot] :=
  c10_tagfree_equivalence [("Default", "Style: Default,...")] [Line.ev c10WTop]
    [("Sub-CN", "Style: Sub-CN,...")] [Line.ev c10WBot] (by decide) (by decide)

end DualSub
